import Mathlib

/-!
Verification of the core of `tools/clean_and_index.py`: the slug generator,
the identifier allocator, the heading classifier, the heading indexer and the
cross-reference rewriter.  The document tree is embedded as a list of
elements in document order; each element carries its tag name, its attribute
list and its visible text.  All functions are computable translations of the
Python source.
-/

namespace CleanAndIndex

/-- Membership in the regex class `[a-z0-9]` (codepoints 97..122 and 48..57). -/
def isLowerAlnum (c : Char) : Bool :=
  (97 ≤ c.toNat && c.toNat ≤ 122) || (48 ≤ c.toNat && c.toNat ≤ 57)

/-- Membership in the regex class `[0-9A-Z]` (codepoints 48..57 and 65..90). -/
def isUpperAlnum (c : Char) : Bool :=
  (48 ≤ c.toNat && c.toNat ≤ 57) || (65 ≤ c.toNat && c.toNat ≤ 90)

/-- Whitespace for Python's `str.strip()`: ASCII whitespace plus NBSP. -/
def isPySpace (c : Char) : Bool :=
  c.isWhitespace || c = '\u00A0'

/-- Python `str.strip()`: drop whitespace from both ends. -/
def pyStrip (s : String) : String :=
  (((s.toList.dropWhile isPySpace).reverse.dropWhile isPySpace).reverse).asString

/-- Replace every maximal run of characters outside `[a-z0-9]` by a single
hyphen: the effect of `re.sub(r"[^a-z0-9]+", "-", text)`.  The boolean records
whether the previous character was part of such a run. -/
def dashRuns : Bool → List Char → List Char
  | _, [] => []
  | inRun, c :: rest =>
    if isLowerAlnum c then c :: dashRuns false rest
    else if inRun then dashRuns true rest
    else '-' :: dashRuns true rest

/-- Collapse every run of hyphens to a single hyphen: the effect of
`re.sub(r"-{2,}", "-", text)`.  The boolean records whether the previous
character was a hyphen. -/
def collapseDashes : Bool → List Char → List Char
  | _, [] => []
  | prev, c :: rest =>
    if c = '-' then
      (if prev then collapseDashes true rest else '-' :: collapseDashes true rest)
    else c :: collapseDashes false rest

/-- Python `str.strip("-")`: drop hyphens from both ends. -/
def stripDashes (l : List Char) : List Char :=
  ((l.dropWhile (fun c => c = '-')).reverse.dropWhile (fun c => c = '-')).reverse

/-- The non-breaking-space character normalized by `slugify`. -/
def nbsp : Char := '\u00A0'

/-- The normalization pipeline of `slugify`: trim and lowercase, normalize
NBSP to a space, replace each run of characters outside `[a-z0-9]` by one
hyphen, collapse repeated hyphens, strip edge hyphens. -/
def slugCore (text : String) : List Char :=
  stripDashes (collapseDashes false (dashRuns false
    (((pyStrip text).toList.map Char.toLower).map (fun c => if c = nbsp then ' ' else c))))

/-- The slug generator `slugify` of `clean_and_index.py`: the normalization
pipeline with the literal fallback token `"section"` when it comes out
empty. -/
def slugify (text : String) : String :=
  if (slugCore text).isEmpty then "section" else (slugCore text).asString

/-- Decimal digit character for a digit value below ten. -/
def digitChar (d : Nat) : Char := Char.ofNat (48 + d)

/-- Big-endian decimal digits of a natural number, with explicit fuel; the
fuel `n + 1` always suffices. -/
def natDigitsAux : Nat → Nat → List Char
  | 0, _ => []
  | fuel + 1, n =>
    if n < 10 then [digitChar n]
    else natDigitsAux fuel (n / 10) ++ [digitChar (n % 10)]

/-- Decimal rendering of a natural number, as Python's string formatting of
a non-negative `int` produces it. -/
def natRepr (n : Nat) : String := (natDigitsAux (n + 1) n).asString

/-- The suffixed identifier candidate `f"{base}-{i}"` probed by `unique_id`. -/
def suffixCandidate (base : String) (i : Nat) : String :=
  base ++ "-" ++ natRepr i

/-- Add an element to a set-like list of strings (Python `set.add`). -/
def setAdd (used : List String) (x : String) : List String :=
  if x ∈ used then used else x :: used

theorem digitChar_toNat : ∀ d, d < 10 → (digitChar d).toNat = 48 + d := by decide

theorem digitChar_inj : ∀ d, d < 10 → ∀ e, e < 10 → digitChar d = digitChar e → d = e := by
  decide

theorem natDigitsAux_ne_nil (fuel n : Nat) (h : 0 < fuel) : natDigitsAux fuel n ≠ [] := by
  cases fuel with
  | zero => omega
  | succ f =>
    simp only [natDigitsAux]
    split
    · simp
    · simp

theorem natDigitsAux_inj : ∀ f : Nat, ∀ n g m : Nat, n < f → m < g →
    natDigitsAux f n = natDigitsAux g m → n = m := by
  intro f
  induction f with
  | zero => intro n g m hn; omega
  | succ f ih =>
    intro n g m hn hm heq
    cases g with
    | zero => omega
    | succ g =>
      simp only [natDigitsAux] at heq
      by_cases h1 : n < 10 <;> by_cases h2 : m < 10
      · simp only [if_pos h1, if_pos h2, List.cons.injEq] at heq
        exact digitChar_inj n h1 m h2 heq.1
      · simp only [if_pos h1, if_neg h2] at heq
        exfalso
        cases hX : natDigitsAux g (m / 10) with
        | nil => exact natDigitsAux_ne_nil g (m / 10) (by omega) hX
        | cons a l =>
          rw [hX] at heq
          have hlen := congrArg List.length heq
          simp only [List.length_cons, List.length_append, List.length_nil,
            List.cons_append] at hlen
          omega
      · simp only [if_neg h1, if_pos h2] at heq
        exfalso
        cases hX : natDigitsAux f (n / 10) with
        | nil => exact natDigitsAux_ne_nil f (n / 10) (by omega) hX
        | cons a l =>
          rw [hX] at heq
          have hlen := congrArg List.length heq
          simp only [List.length_cons, List.length_append, List.length_nil,
            List.cons_append] at hlen
          omega
      · simp only [if_neg h1, if_neg h2] at heq
        have hrev := congrArg List.reverse heq
        simp only [List.reverse_append, List.reverse_cons, List.reverse_nil,
          List.nil_append, List.cons_append, List.cons.injEq] at hrev
        have hmod : n % 10 = m % 10 :=
          digitChar_inj _ (Nat.mod_lt _ (by omega)) _ (Nat.mod_lt _ (by omega)) hrev.1
        have htail : natDigitsAux f (n / 10) = natDigitsAux g (m / 10) := by
          have := congrArg List.reverse hrev.2
          simpa using this
        have hdiv : n / 10 = m / 10 := by
          refine ih (n / 10) g (m / 10) ?_ ?_ htail
          · have : n / 10 < n := Nat.div_lt_self (by omega) (by omega)
            omega
          · have : m / 10 < m := Nat.div_lt_self (by omega) (by omega)
            omega
        omega

theorem natRepr_toList (n : Nat) : (natRepr n).toList = natDigitsAux (n + 1) n := rfl

theorem natRepr_inj {n m : Nat} (h : natRepr n = natRepr m) : n = m := by
  have h' : natDigitsAux (n + 1) n = natDigitsAux (m + 1) m := by
    have := congrArg String.toList h
    simpa [natRepr_toList] using this
  exact natDigitsAux_inj (n + 1) n (m + 1) m (by omega) (by omega) h'

theorem natDigitsAux_digit : ∀ f n : Nat, ∀ c ∈ natDigitsAux f n,
    48 ≤ c.toNat ∧ c.toNat ≤ 57 := by
  intro f
  induction f with
  | zero => intro n c hc; simp [natDigitsAux] at hc
  | succ f ih =>
    intro n c hc
    simp only [natDigitsAux] at hc
    split at hc
    · rename_i h
      simp at hc
      subst hc
      rw [digitChar_toNat n h]
      omega
    · simp at hc
      rcases hc with hc | hc
      · exact ih _ c hc
      · subst hc
        rw [digitChar_toNat _ (Nat.mod_lt _ (by omega))]
        have := Nat.mod_lt n (y := 10) (by omega)
        omega

theorem suffixCandidate_inj (base : String) {i j : Nat}
    (h : suffixCandidate base i = suffixCandidate base j) : i = j := by
  have hd : (suffixCandidate base i).data = (suffixCandidate base j).data :=
    congrArg String.data h
  simp only [suffixCandidate, String.data_append] at hd
  have : (natRepr i).data = (natRepr j).data := List.append_cancel_left hd
  exact natRepr_inj (by cases hi : natRepr i; cases hj : natRepr j; simp_all)

/-- Some suffixed candidate is always free: there are more candidates than
members of `used`. -/
theorem exists_free_suffix (base : String) (used : List String) :
    ∃ n : Nat, suffixCandidate base (n + 2) ∉ used := by
  by_contra hall
  push_neg at hall
  have hsub : (Finset.range (used.length + 1)).image
      (fun n => suffixCandidate base (n + 2)) ⊆ used.toFinset := by
    intro s hs
    simp only [Finset.mem_image] at hs
    obtain ⟨n, _, rfl⟩ := hs
    exact List.mem_toFinset.mpr (hall n)
  have hcard := Finset.card_le_card hsub
  rw [Finset.card_image_of_injective _ (fun a b hab => by
    have := suffixCandidate_inj base hab
    omega)] at hcard
  have := used.toFinset_card_le
  simp [Finset.card_range] at hcard
  omega

/-- The identifier allocator `unique_id`:  return `base` if it is free,
otherwise the first candidate `base-2`, `base-3`, … that is free; the chosen
token is added to `used`.  The while loop of the source is rendered with
`Nat.find`, which picks the least free suffix exactly as the loop does. -/
def unique_id (base : String) (used : List String) : String × List String :=
  if base ∈ used then
    let final := suffixCandidate base (Nat.find (exists_free_suffix base used) + 2)
    (final, setAdd used final)
  else (base, setAdd used base)

theorem unique_id_props (base : String) (used : List String) :
    ((unique_id base used).1 ∉ used) ∧
    ((unique_id base used).2 = (unique_id base used).1 :: used) ∧
    (base ∉ used → (unique_id base used).1 = base) ∧
    (base ∈ used → ∃ i, 2 ≤ i ∧ (unique_id base used).1 = suffixCandidate base i ∧
      ∀ j, 2 ≤ j → j < i → suffixCandidate base j ∈ used) := by
  by_cases hb : base ∈ used
  · have hspec := Nat.find_spec (exists_free_suffix base used)
    refine ⟨?_, ?_, fun h => absurd hb h, fun _ => ?_⟩
    · simpa [unique_id, hb] using hspec
    · simp only [unique_id, if_pos hb, setAdd]
      rw [if_neg hspec]
    · refine ⟨Nat.find (exists_free_suffix base used) + 2, by omega, by
        simp [unique_id, hb], ?_⟩
      intro j h2 hj
      have hmin := Nat.find_min (exists_free_suffix base used) (m := j - 2) (by omega)
      simp only [not_not] at hmin
      have : j - 2 + 2 = j := by omega
      rwa [this] at hmin
  · refine ⟨?_, ?_, fun _ => by simp [unique_id, hb], fun h => absurd h hb⟩
    · simp [unique_id, hb]
    · simp only [unique_id, if_neg hb, setAdd]

theorem dashRuns_mem : ∀ (b : Bool) (l : List Char), ∀ c ∈ dashRuns b l,
    isLowerAlnum c = true ∨ c = '-' := by
  intro b l
  induction l generalizing b with
  | nil => intro c hc; simp [dashRuns] at hc
  | cons a rest ih =>
    intro c hc
    simp only [dashRuns] at hc
    by_cases ha : isLowerAlnum a
    · rw [if_pos ha] at hc
      rcases List.mem_cons.mp hc with rfl | hc
      · exact Or.inl ha
      · exact ih false c hc
    · rw [if_neg ha] at hc
      cases b with
      | true => exact ih true c (by simpa using hc)
      | false =>
        simp only [Bool.false_eq_true, if_neg] at hc
        rcases List.mem_cons.mp (by simpa using hc) with rfl | hc
        · exact Or.inr rfl
        · exact ih true c hc

theorem collapseDashes_subset : ∀ (b : Bool) (l : List Char), ∀ c ∈ collapseDashes b l,
    c ∈ l := by
  intro b l
  induction l generalizing b with
  | nil => intro c hc; simp [collapseDashes] at hc
  | cons a rest ih =>
    intro c hc
    simp only [collapseDashes] at hc
    by_cases ha : a = '-'
    · rw [if_pos ha] at hc
      cases b with
      | true => exact List.mem_cons_of_mem a (ih true c (by simpa using hc))
      | false =>
        rcases List.mem_cons.mp (by simpa using hc) with rfl | hc
        · simp [ha]
        · exact List.mem_cons_of_mem a (ih true c hc)
    · rw [if_neg ha] at hc
      rcases List.mem_cons.mp hc with rfl | hc
      · exact List.mem_cons_self c rest
      · exact List.mem_cons_of_mem a (ih false c hc)

theorem head_dropWhile {α : Type} (p : α → Bool) :
    ∀ (l : List α) (c : α) (rest : List α), l.dropWhile p = c :: rest → p c = false := by
  intro l
  induction l with
  | nil => intro c rest h; simp [List.dropWhile] at h
  | cons a l ih =>
    intro c rest h
    rw [List.dropWhile_cons] at h
    by_cases ha : p a
    · rw [if_pos (by simpa using ha)] at h
      exact ih c rest h
    · rw [if_neg (by simpa using ha)] at h
      cases h
      simpa using ha

theorem stripDashes_subset (l : List Char) : ∀ c ∈ stripDashes l, c ∈ l := by
  intro c hc
  simp only [stripDashes, List.mem_reverse] at hc
  have h1 := List.dropWhile_subset (l := (l.dropWhile (fun c => c = '-')).reverse)
    (p := fun c => c = '-') hc
  rw [List.mem_reverse] at h1
  exact List.dropWhile_subset _ h1

theorem stripDashes_head (l : List Char) (c : Char) (rest : List Char)
    (h : stripDashes l = c :: rest) : ¬ c = '-' := by
  obtain ⟨t, ht⟩ := List.dropWhile_suffix
    (l := (l.dropWhile (fun c => c = '-')).reverse) (fun c => c = '-')
  have hA : (((l.dropWhile (fun c => c = '-')).reverse.dropWhile
      (fun c => c = '-')).reverse ++ t.reverse) = l.dropWhile (fun c => c = '-') := by
    have h2 := congrArg List.reverse ht
    simpa only [List.reverse_append, List.reverse_reverse] using h2
  have hA' : l.dropWhile (fun c => c = '-') = c :: (rest ++ t.reverse) := by
    rw [← hA, show (((l.dropWhile (fun c => c = '-')).reverse.dropWhile
      (fun c => c = '-')).reverse) = stripDashes l from rfl, h]
    simp
  have := head_dropWhile (fun c => c = '-') l c (rest ++ t.reverse) hA'
  simpa using this

theorem stripDashes_getLast (l : List Char) (c : Char)
    (h : (stripDashes l).getLast? = some c) : ¬ c = '-' := by
  rw [show stripDashes l = ((l.dropWhile (fun c => c = '-')).reverse.dropWhile
      (fun c => c = '-')).reverse from rfl, List.getLast?_reverse] at h
  cases hX : (l.dropWhile (fun c => c = '-')).reverse.dropWhile (fun c => c = '-') with
  | nil => rw [hX] at h; simp at h
  | cons a tail =>
    rw [hX] at h
    simp only [List.head?_cons, Option.some.injEq] at h
    have := head_dropWhile (fun c => c = '-')
      ((l.dropWhile (fun c => c = '-')).reverse) a tail hX
    rw [← h]
    simpa using this

theorem asString_toList (l : List Char) : (l.asString).toList = l := rfl

theorem slugCore_chars (text : String) :
    ∀ c ∈ slugCore text, isLowerAlnum c = true ∨ c = '-' := by
  intro c hc
  have h1 := stripDashes_subset _ c hc
  have h2 := collapseDashes_subset false _ c h1
  exact dashRuns_mem false _ c h2

theorem slugify_chars (text : String) :
    ∀ c ∈ (slugify text).toList, isLowerAlnum c = true ∨ c = '-' := by
  intro c hc
  by_cases he : (slugCore text).isEmpty
  · rw [slugify, if_pos he] at hc
    revert hc
    have : ∀ c ∈ ("section" : String).toList, isLowerAlnum c = true ∨ c = '-' := by decide
    exact this c
  · rw [slugify, if_neg he, asString_toList] at hc
    exact slugCore_chars text c hc

theorem slugify_ne_empty (text : String) : ¬ slugify text = "" := by
  by_cases he : (slugCore text).isEmpty
  · rw [slugify, if_pos he]; decide
  · rw [slugify, if_neg he]
    intro h
    have := congrArg String.toList h
    rw [asString_toList] at this
    simp only [String.toList] at this
    exact he (by simp [this, List.isEmpty_iff])

theorem slugify_head (text : String) (c : Char) (rest : List Char)
    (h : (slugify text).toList = c :: rest) : ¬ c = '-' := by
  by_cases he : (slugCore text).isEmpty
  · rw [slugify, if_pos he] at h
    have hs : ("section" : String).toList = ['s','e','c','t','i','o','n'] := rfl
    rw [hs] at h
    cases h
    decide
  · rw [slugify, if_neg he, asString_toList] at h
    exact stripDashes_head _ c rest h

theorem slugify_getLast (text : String) (c : Char)
    (h : (slugify text).toList.getLast? = some c) : ¬ c = '-' := by
  by_cases he : (slugCore text).isEmpty
  · rw [slugify, if_pos he] at h
    have hs : ("section" : String).toList = ['s','e','c','t','i','o','n'] := rfl
    rw [hs] at h
    simp at h
    subst h
    decide
  · rw [slugify, if_neg he, asString_toList] at h
    exact stripDashes_getLast _ c h

/-- An element of the parsed document, in document order: tag name, attribute
list (BeautifulSoup's `el.attrs`), and visible text (`el.get_text(" ",
strip=True)`).  The tree is flattened to the list of its elements, which is
how both passes of the source traverse it (`find_all` in document order). -/
structure Element where
  tag : String
  attrs : List (String × String)
  text : String
deriving DecidableEq

/-- One row of the heading index, as built by `add_heading_ids_and_collect`. -/
structure Row where
  level : Nat
  heading : String
  id : String
  absolutePath : String
  anchor : String
  link : String
deriving DecidableEq

/-- One record of the broken-links list built by `rewrite_cross_references`. -/
structure BrokenLink where
  href : String
  text : String
deriving DecidableEq

/-- Default element, used with `List.getD`. -/
def dElem : Element := ⟨"", [], ""⟩

/-- Default row, used with `List.getD`. -/
def dRow : Row := ⟨0, "", "", "", "", ""⟩

/-- Attribute access (`el.get(key)`): the first binding of `key`. -/
def getAttr (el : Element) (key : String) : Option String :=
  (el.attrs.find? (fun kv => kv.1 = key)).map (fun kv => kv.2)

def setAttrList : List (String × String) → String → String → List (String × String)
  | [], key, v => [(key, v)]
  | kv :: rest, key, v =>
    if kv.1 = key then (key, v) :: rest else kv :: setAttrList rest key v

/-- Attribute assignment (`el[key] = v`): overwrite the first binding of
`key`, or append one. -/
def setAttr (el : Element) (key v : String) : Element :=
  { el with attrs := setAttrList el.attrs key v }

/-- The loop `for el in soup.find_all(True): if el.has_attr("id") and
el["id"]: ids.add(el["id"])` shared by the indexer and the rewriter: the
non-empty id attribute values of the document, in document order. -/
def collect_ids (doc : List Element) : List String :=
  doc.filterMap (fun el =>
    match getAttr el "id" with
    | some v => if v = "" then none else some v
    | none => none)

def HEADING_TAGS : List String := ["h1", "h2", "h3", "h4", "h5", "h6"]

/-- The function `heading_level`: the digit after the `h` (`int(tag_name[1])`). -/
def heading_level (tag_name : String) : Nat :=
  (tag_name.toList.getD 1 '0').toNat - ('0').toNat

/-- The classifier `is_zendesk_generated_id`: full match of the regex
`h_[0-9A-Z]{20,}`. -/
def is_zendesk_generated_id (val : String) : Bool :=
  (val.toList.take 2 == ['h', '_']) &&
    decide (20 ≤ (val.toList.drop 2).length) && (val.toList.drop 2).all isUpperAlnum

/-- The replacement decision of line 152 of the source:
`replace_existing_ids and (not current or is_zendesk_generated_id(current))`. -/
def should_replace_id (replace_existing_ids : Bool) (current : String) : Bool :=
  replace_existing_ids && (current == "" || is_zendesk_generated_id current)

/-- Dictionary lookup (`k in d` / `d[k]`). -/
def mapLookup (m : List (String × String)) (k : String) : Option String :=
  (m.find? (fun kv => kv.1 = k)).map (fun kv => kv.2)

/-- Dictionary assignment `d[k] = v`: overwrite in place or append. -/
def mapInsert (m : List (String × String)) (k v : String) : List (String × String) :=
  if (m.find? (fun kv => kv.1 = k)).isSome then
    m.map (fun kv => if kv.1 = k then (k, v) else kv)
  else m ++ [(k, v)]

/-- Path-stack assignment `stack[lvl] = (title, hid)`. -/
def stackUpdate (st : List (Nat × String × String)) (lvl : Nat) (title hid : String) :
    List (Nat × String × String) :=
  (lvl, title, hid) :: st.filter (fun e => ¬ e.1 = lvl)

/-- The pruning loop `for deeper in range(lvl + 1, 7): stack.pop(deeper, None)`. -/
def stackPrune (st : List (Nat × String × String)) (lvl : Nat) :
    List (Nat × String × String) :=
  st.filter (fun e => e.1 ≤ lvl || 7 ≤ e.1)

/-- Path-stack lookup `stack[i]` (with `i in stack` as `isSome`). -/
def stackFind (st : List (Nat × String × String)) (i : Nat) : Option (String × String) :=
  (st.find? (fun e => e.1 = i)).map (fun e => e.2)

/-- The comprehension `[stack[i][0] for i in range(1, lvl + 1) if i in stack]`. -/
def path_titles (st : List (Nat × String × String)) (lvl : Nat) : List String :=
  (List.range' 1 lvl).filterMap (fun i => (stackFind st i).map (fun e => e.1))

/-- State threaded through the heading loop of `add_heading_ids_and_collect`. -/
structure IdxState where
  used : List String
  stack : List (Nat × String × String)
  rows : List Row
  id_map : List (String × String)
  out : List Element
deriving DecidableEq

/-- Steps 4-6 of the heading loop, shared by both classifier branches:
update and prune the path stack, compute the absolute path, emit the row
(with `anchor = "#" + id` and `link = page_url + anchor` when a page url is
given), and emit the mutated heading element. -/
def finishHeading (page_url : String) (s : IdxState) (used : List String)
    (id_map : List (String × String)) (h1 : Element) (title hid : String) : IdxState :=
  { used := used,
    stack := stackPrune (stackUpdate s.stack (heading_level h1.tag) title hid)
      (heading_level h1.tag),
    rows := s.rows ++ [⟨heading_level h1.tag, title, hid,
      String.intercalate " > " (path_titles
        (stackPrune (stackUpdate s.stack (heading_level h1.tag) title hid)
          (heading_level h1.tag)) (heading_level h1.tag)),
      "#" ++ hid,
      if page_url = "" then "#" ++ hid else page_url ++ ("#" ++ hid)⟩],
    id_map := id_map, out := s.out ++ [h1] }

/-- Body of the loop `for h in soup.find_all(HEADING_TAGS)` of
`add_heading_ids_and_collect`; elements that are not headings pass through
untouched (the tree is mutated in place, so the output keeps them).  The
Python `hid = current or unique_id(...)` of the preserve branch is rendered
as the two cases of `current` being empty or not. -/
def indexStep (page_url : String) (replace_existing_ids : Bool)
    (s : IdxState) (h : Element) : IdxState :=
  if h.tag ∈ HEADING_TAGS then
    if should_replace_id replace_existing_ids (pyStrip ((getAttr h "id").getD "")) then
      finishHeading page_url s (unique_id (slugify h.text) s.used).2
        (if pyStrip ((getAttr h "id").getD "") = "" then s.id_map
         else mapInsert s.id_map (pyStrip ((getAttr h "id").getD ""))
           (unique_id (slugify h.text) s.used).1)
        (setAttr h "id" (unique_id (slugify h.text) s.used).1) h.text
        (unique_id (slugify h.text) s.used).1
    else
      if pyStrip ((getAttr h "id").getD "") = "" then
        finishHeading page_url s
          (setAdd (unique_id (slugify h.text) s.used).2
            (unique_id (slugify h.text) s.used).1)
          s.id_map (setAttr h "id" (unique_id (slugify h.text) s.used).1) h.text
          (unique_id (slugify h.text) s.used).1
      else
        finishHeading page_url s
          (setAdd s.used (pyStrip ((getAttr h "id").getD ""))) s.id_map
          (setAttr h "id" (pyStrip ((getAttr h "id").getD "")))
          h.text (pyStrip ((getAttr h "id").getD ""))
  else { s with out := s.out ++ [h] }

/-- The heading indexer `add_heading_ids_and_collect`: seed the used-id set
with every non-empty id of the document, then walk the elements in document
order.  Returns the mutated document, the heading rows and the old-to-new
identifier map. -/
def add_heading_ids_and_collect (doc : List Element) (page_url : String)
    (replace_existing_ids : Bool) :
    List Element × List Row × List (String × String) :=
  let s := doc.foldl (indexStep page_url replace_existing_ids)
    { used := collect_ids doc, stack := [], rows := [], id_map := [], out := [] }
  (s.out, s.rows, s.id_map)

/-- Python `href.rsplit("#", 1)` for an href that contains `#`: everything
before the last `#`, and everything after it. -/
def rsplit_hash (href : String) : String × String :=
  (((href.toList.reverse.dropWhile (fun c => ¬ c = '#')).drop 1).reverse.asString,
   (href.toList.reverse.takeWhile (fun c => ¬ c = '#')).reverse.asString)

/-- The function `rewrite_anchor_href`: rewrite `base#old` to `base#new`
when `old` is a key of the identifier map; returns the new href and whether
it changed. -/
def rewrite_anchor_href (href : String) (id_map : List (String × String)) :
    String × Bool :=
  if href = "" then (href, false)
  else if ¬ '#' ∈ href.toList then (href, false)
  else if (rsplit_hash href).2 = "" then (href, false)
  else
    match mapLookup id_map (rsplit_hash href).2 with
    | some newId =>
      (if (rsplit_hash href).1 = "" then "#" ++ newId
       else (rsplit_hash href).1 ++ "#" ++ newId, true)
    | none => (href, false)

/-- The check `if href.startswith("#")` of `rewrite_cross_references`:
track internal anchors whose target (`href[1:]`) does not exist. -/
def link_b1 (current_ids : List String) (href htext : String) : List BrokenLink :=
  if href.toList.head? = some '#' then
    if ¬ (href.toList.drop 1).asString = "" ∧
        ¬ (href.toList.drop 1).asString ∈ current_ids then [⟨href, htext⟩]
    else []
  else []

/-- The check `if "#" in href` of `rewrite_cross_references`: track
`url#anchor` hrefs whose last fragment looks editor-generated and does not
exist locally. -/
def link_b2 (current_ids : List String) (href htext : String) : List BrokenLink :=
  if '#' ∈ href.toList then
    if ¬ (rsplit_hash href).2 = "" ∧ ¬ (rsplit_hash href).2 ∈ current_ids ∧
        is_zendesk_generated_id (rsplit_hash href).2 then [⟨href, htext⟩]
    else []
  else []

/-- Body of the loop `for a in soup.find_all("a")` of
`rewrite_cross_references`: the (possibly) mutated element, the increment of
`changed_count`, and the broken-link records appended for this element.
Elements that are not anchors pass through untouched. -/
def process_link (id_map : List (String × String)) (current_ids : List String)
    (el : Element) : Element × Nat × List BrokenLink :=
  if ¬ el.tag = "a" then (el, 0, [])
  else if (getAttr el "href").getD "" = "" then (el, 0, [])
  else if (rewrite_anchor_href ((getAttr el "href").getD "") id_map).2 then
    (setAttr el "href" (rewrite_anchor_href ((getAttr el "href").getD "") id_map).1, 1, [])
  else
    (el, 0, link_b1 current_ids ((getAttr el "href").getD "") el.text ++
      link_b2 current_ids ((getAttr el "href").getD "") el.text)

/-- The reference rewriter `rewrite_cross_references`: collect the current
ids, then process every element; anchors accumulate `changed_count` and the
broken-link list in document order. -/
def rewrite_cross_references (doc : List Element) (id_map : List (String × String)) :
    List Element × Nat × List BrokenLink :=
  let current_ids := collect_ids doc
  (doc.map (fun el => (process_link id_map current_ids el).1),
   (doc.map (fun el => (process_link id_map current_ids el).2.1)).sum,
   doc.flatMap (fun el => (process_link id_map current_ids el).2.2))

/-- Document of the C1 counterexample: two headings that both carry the
author-chosen identifier `intro-section`. -/
def dupIdDoc : List Element :=
  [⟨"h1", [("id", "intro-section")], "A"⟩, ⟨"h1", [("id", "intro-section")], "B"⟩]

/-- Document of the C2 counterexample: one anchor whose pure-fragment href
names a missing editor-generated identifier. -/
def brokenTwiceDoc : List Element :=
  [⟨"a", [("href", "#h_0000000000000000000A")], "x"⟩]

/-- Document of the C8 counterexample: one anchor whose href ends in `#`, so
its last fragment is empty, but whose text after the first `#` is not. -/
def emptyFragDoc : List Element := [⟨"a", [("href", "#a#")], "x"⟩]

/-- Document of the end-to-end scenario of the spec, used by witnesses. -/
def demoDoc : List Element :=
  [⟨"h1", [("id", "h_01F2GC36KSSZJMS4VPK8SSSZ7B")], "Getting Started"⟩,
   ⟨"h2", [], "Install"⟩,
   ⟨"a", [("href", "#h_01F2GC36KSSZJMS4VPK8SSSZ7B")], "top"⟩,
   ⟨"a", [("href", "#missing")], "gone"⟩]

theorem toList_asString (s : String) : s.toList.asString = s := by
  cases s
  rfl

theorem str_empty_append (s : String) : "" ++ s = s := by
  cases s
  rfl

theorem takeWhile_append_stop {α : Type} (p : α → Bool) (xs : List α) (y : α)
    (ys : List α) (hxs : ∀ x ∈ xs, p x = true) (hy : p y = false) :
    (xs ++ y :: ys).takeWhile p = xs := by
  induction xs with
  | nil => simpa [List.takeWhile_cons] using hy
  | cons a rest ih =>
    have ha : p a = true := hxs a (List.mem_cons_self a rest)
    simp only [List.cons_append, List.takeWhile_cons, ha, if_true]
    rw [ih (fun x hx => hxs x (List.mem_cons_of_mem a hx))]

theorem dropWhile_append_stop {α : Type} (p : α → Bool) (xs : List α) (y : α)
    (ys : List α) (hxs : ∀ x ∈ xs, p x = true) (hy : p y = false) :
    (xs ++ y :: ys).dropWhile p = y :: ys := by
  induction xs with
  | nil => simp [List.dropWhile_cons, hy]
  | cons a rest ih =>
    have ha : p a = true := hxs a (List.mem_cons_self a rest)
    simp only [List.cons_append, List.dropWhile_cons, ha, if_true]
    exact ih (fun x hx => hxs x (List.mem_cons_of_mem a hx))

/-- Splitting `base#frag` on the last `#` recovers `base` and `frag` when
`frag` itself contains no `#`. -/
theorem rsplit_hash_append (base frag : String) (hnh : ¬ '#' ∈ frag.toList) :
    rsplit_hash (base ++ "#" ++ frag) = (base, frag) := by
  have hdata : (base ++ "#" ++ frag).toList = base.toList ++ '#' :: frag.toList := by
    show (base ++ "#" ++ frag).data = base.data ++ '#' :: frag.data
    rw [String.data_append, String.data_append,
      show ("#" : String).data = ['#'] from rfl, List.append_assoc]
    rfl
  have hrev : (base ++ "#" ++ frag).toList.reverse =
      frag.toList.reverse ++ '#' :: base.toList.reverse := by
    rw [hdata, List.reverse_append, List.reverse_cons]
    simp
  have hmem : ∀ x ∈ frag.toList.reverse, (fun c => decide (¬ c = '#')) x = true := by
    intro x hx
    rw [List.mem_reverse] at hx
    simp only [decide_eq_true_eq]
    intro hxx
    exact hnh (hxx ▸ hx)
  have hstop : (fun c => decide (¬ c = '#')) '#' = false := by simp
  unfold rsplit_hash
  rw [hrev, takeWhile_append_stop _ _ _ _ hmem hstop,
    dropWhile_append_stop _ _ _ _ hmem hstop]
  simp only [List.drop_one, List.tail_cons, List.reverse_reverse]
  rw [toList_asString, toList_asString]

theorem rsplit_hash_pure (frag : String) (hnh : ¬ '#' ∈ frag.toList) :
    rsplit_hash ("#" ++ frag) = ("", frag) := by
  rw [← str_empty_append ("#" ++ frag), ← String.append_assoc]
  exact rsplit_hash_append "" frag hnh

theorem find?_setAttrList (attrs : List (String × String)) (key v key2 : String) :
    (setAttrList attrs key v).find? (fun kv => kv.1 = key2) =
      if key2 = key then some (key, v) else attrs.find? (fun kv => kv.1 = key2) := by
  induction attrs with
  | nil =>
    by_cases h : key2 = key
    · subst h
      simp [setAttrList]
    · have h' : ¬ key = key2 := fun hh => h hh.symm
      simp [setAttrList, h, h']
  | cons kv rest ih =>
    by_cases hk : kv.1 = key
    · by_cases h : key2 = key
      · subst h
        simp [setAttrList, hk]
      · have h1 : ¬ kv.1 = key2 := fun hh => h (by rw [← hh]; exact hk)
        have h2 : ¬ key = key2 := fun hh => h hh.symm
        simp only [setAttrList, if_pos hk, if_neg h]
        rw [List.find?_cons_of_neg _ (by simpa using h2),
          List.find?_cons_of_neg _ (by simpa using h1)]
    · simp only [setAttrList, if_neg hk]
      by_cases h2 : kv.1 = key2
      · have hne : ¬ key2 = key := fun hh => hk (by rw [h2, hh])
        rw [if_neg hne, List.find?_cons_of_pos _ (by simpa using h2),
          List.find?_cons_of_pos _ (by simpa using h2)]
      · rw [List.find?_cons_of_neg _ (by simpa using h2), ih]
        by_cases h : key2 = key
        · simp [h]
        · rw [if_neg h, if_neg h, List.find?_cons_of_neg _ (by simpa using h2)]

theorem getAttr_setAttr (el : Element) (key v key2 : String) :
    getAttr (setAttr el key v) key2 = if key2 = key then some v else getAttr el key2 := by
  unfold getAttr setAttr
  simp only
  rw [find?_setAttrList]
  by_cases h : key2 = key
  · simp [h]
  · simp [h]

theorem tag_setAttr (el : Element) (key v : String) : (setAttr el key v).tag = el.tag := rfl

theorem text_setAttr (el : Element) (key v : String) : (setAttr el key v).text = el.text := rfl

theorem getD_map {α : Type} (f : α → α) (l : List α) (d : α) (k : Nat)
    (hd : f d = d) : (l.map f).getD k d = f (l.getD k d) := by
  by_cases hk : k < l.length
  · rw [List.getD_eq_getElem _ _ (by simpa using hk), List.getD_eq_getElem _ _ hk]
    simp
  · rw [List.getD_eq_default _ _ (by simpa using Nat.le_of_not_lt hk),
      List.getD_eq_default _ _ (Nat.le_of_not_lt hk), hd]

theorem hash_append_ne_empty (base frag : String) : ¬ (base ++ "#" ++ frag) = "" := by
  intro h
  have hd := congrArg String.data h
  rw [String.data_append, String.data_append,
    show ("#" : String).data = ['#'] from rfl] at hd
  simp at hd

theorem hash_mem_append (base frag : String) : '#' ∈ (base ++ "#" ++ frag).toList := by
  show '#' ∈ (base ++ "#" ++ frag).data
  rw [String.data_append, String.data_append,
    show ("#" : String).data = ['#'] from rfl]
  simp

theorem hash_pure_ne_empty (frag : String) : ¬ ("#" ++ frag) = "" := by
  rw [← str_empty_append ("#" ++ frag), ← String.append_assoc]
  exact hash_append_ne_empty "" frag

theorem hash_pure_toList (frag : String) : ("#" ++ frag).toList = '#' :: frag.toList := by
  show ("#" ++ frag).data = '#' :: frag.data
  rw [String.data_append, show ("#" : String).data = ['#'] from rfl]
  rfl

theorem hash_pure_mem (frag : String) : '#' ∈ ("#" ++ frag).toList := by
  rw [hash_pure_toList]
  exact List.mem_cons_self _ _

/-- Behaviour of `rewrite_anchor_href`: when it changes, and that an
unchanged link keeps its href. -/
theorem rewrite_anchor_href_spec (href : String) (id_map : List (String × String)) :
    ((rewrite_anchor_href href id_map).2 = true ↔
      (¬ href = "" ∧ '#' ∈ href.toList ∧ ¬ (rsplit_hash href).2 = "" ∧
        (mapLookup id_map (rsplit_hash href).2).isSome = true)) ∧
    ((rewrite_anchor_href href id_map).2 = false →
      (rewrite_anchor_href href id_map).1 = href) := by
  unfold rewrite_anchor_href
  by_cases h1 : href = ""
  · simp [h1]
  · rw [if_neg h1]
    by_cases h2 : '#' ∈ href.toList
    · rw [if_neg (not_not_intro h2)]
      by_cases h3 : (rsplit_hash href).2 = ""
      · simp [h3]
      · rw [if_neg h3]
        cases hm : mapLookup id_map (rsplit_hash href).2 with
        | none => simp [h1, h3, hm, show '#' ∈ href.data from h2]
        | some newId => simp [h1, h3, hm, show '#' ∈ href.data from h2]
    · simp [h1, show ¬ '#' ∈ href.data from h2]

theorem rewrite_anchor_href_hit (href newId : String) (id_map : List (String × String))
    (h1 : ¬ href = "") (h2 : '#' ∈ href.toList) (h3 : ¬ (rsplit_hash href).2 = "")
    (hlk : mapLookup id_map (rsplit_hash href).2 = some newId) :
    rewrite_anchor_href href id_map =
      (if (rsplit_hash href).1 = "" then "#" ++ newId
       else (rsplit_hash href).1 ++ "#" ++ newId, true) := by
  unfold rewrite_anchor_href
  rw [if_neg h1, if_neg (not_not_intro h2), if_neg h3, hlk]

/-- Rewriting a link of the form `base#frag` with `frag` a key of the map
splices the new identifier after the last `#`. -/
theorem rewrite_anchor_href_base_frag (base frag newId : String)
    (id_map : List (String × String)) (hnh : ¬ '#' ∈ frag.toList) (hfr : ¬ frag = "")
    (hlk : mapLookup id_map frag = some newId) :
    rewrite_anchor_href (base ++ "#" ++ frag) id_map = (base ++ "#" ++ newId, true) := by
  have hrs := rsplit_hash_append base frag hnh
  rw [rewrite_anchor_href_hit (base ++ "#" ++ frag) newId id_map
    (hash_append_ne_empty base frag) (hash_mem_append base frag)
    (by rw [hrs]; exact hfr) (by rw [hrs]; exact hlk), hrs]
  by_cases hb : base = ""
  · rw [if_pos hb, hb, str_empty_append]
  · rw [if_neg hb]

theorem process_link_not_anchor (id_map : List (String × String))
    (cids : List String) (el : Element) (h : ¬ el.tag = "a") :
    process_link id_map cids el = (el, 0, []) := by
  unfold process_link
  rw [if_pos h]

theorem process_link_dElem (id_map : List (String × String)) (cids : List String) :
    process_link id_map cids dElem = (dElem, 0, []) :=
  process_link_not_anchor _ _ _ (by decide)

theorem link_b1_mem (cids : List String) (href htext : String) :
    ∀ b ∈ link_b1 cids href htext, b = ⟨href, htext⟩ := by
  intro b hb
  unfold link_b1 at hb
  split at hb
  · split at hb
    · simpa using hb
    · simp at hb
  · simp at hb

theorem link_b2_mem (cids : List String) (href htext : String) :
    ∀ b ∈ link_b2 cids href htext, b = ⟨href, htext⟩ := by
  intro b hb
  unfold link_b2 at hb
  split at hb
  · split at hb
    · simpa using hb
    · simp at hb
  · simp at hb

theorem link_b1_length (cids : List String) (href htext : String) :
    (link_b1 cids href htext).length ≤ 1 := by
  unfold link_b1
  split
  · split
    · simp
    · simp
  · simp

theorem link_b2_length (cids : List String) (href htext : String) :
    (link_b2 cids href htext).length ≤ 1 := by
  unfold link_b2
  split
  · split
    · simp
    · simp
  · simp

theorem process_link_broken_shape (id_map : List (String × String))
    (cids : List String) (el : Element) :
    ∀ b ∈ (process_link id_map cids el).2.2,
      b = ⟨(getAttr el "href").getD "", el.text⟩ := by
  intro b hb
  unfold process_link at hb
  split at hb
  · simp at hb
  · split at hb
    · simp at hb
    · split at hb
      · simp at hb
      · rcases List.mem_append.mp hb with h | h
        · exact link_b1_mem _ _ _ b h
        · exact link_b2_mem _ _ _ b h

theorem process_link_broken_le_two (id_map : List (String × String))
    (cids : List String) (el : Element) :
    ((process_link id_map cids el).2.2).length ≤ 2 := by
  unfold process_link
  split
  · simp
  · split
    · simp
    · split
      · simp
      · rw [List.length_append]
        have h1 := link_b1_length cids ((getAttr el "href").getD "") el.text
        have h2 := link_b2_length cids ((getAttr el "href").getD "") el.text
        omega

theorem link_b1_pure (cids : List String) (frag htext : String)
    (hne : ¬ frag = "") (hid : ¬ frag ∈ cids) :
    link_b1 cids ("#" ++ frag) htext = [⟨"#" ++ frag, htext⟩] := by
  unfold link_b1
  rw [hash_pure_toList]
  simp only [List.head?_cons, List.drop_succ_cons, List.drop_zero, toList_asString]
  rw [if_pos trivial, if_pos ⟨hne, hid⟩]

theorem link_b2_pure (cids : List String) (frag htext : String)
    (hne : ¬ frag = "") (hnh : ¬ '#' ∈ frag.toList) (hid : ¬ frag ∈ cids) :
    link_b2 cids ("#" ++ frag) htext =
      if is_zendesk_generated_id frag then [⟨"#" ++ frag, htext⟩] else [] := by
  unfold link_b2
  simp only [rsplit_hash_pure frag hnh]
  rw [if_pos (hash_pure_mem frag)]
  by_cases hz : is_zendesk_generated_id frag
  · rw [if_pos ⟨hne, hid, hz⟩, if_pos hz]
  · rw [if_neg (fun hc => hz hc.2.2), if_neg hz]

/-- At an anchor whose href is the pure fragment `#frag` with `frag` missing
from the map and from the current ids, the per-link broken records filtered
to that href number two when `frag` matches the editor-generated pattern and
one otherwise; any other element contributes none with that href. -/
theorem process_link_pure_frag (id_map : List (String × String)) (cids : List String)
    (el : Element) (frag : String) (hne : ¬ frag = "") (hnh : ¬ '#' ∈ frag.toList)
    (hmap : mapLookup id_map frag = none) (hid : ¬ frag ∈ cids) :
    ((process_link id_map cids el).2.2.filter
        (fun b => b.href = "#" ++ frag)).length =
      if el.tag = "a" ∧ getAttr el "href" = some ("#" ++ frag) then
        (if is_zendesk_generated_id frag then 2 else 1)
      else 0 := by
  by_cases hta : el.tag = "a"
  · by_cases hhref : getAttr el "href" = some ("#" ++ frag)
    · have hgetD : (getAttr el "href").getD "" = "#" ++ frag := by rw [hhref]; rfl
      have hch : (rewrite_anchor_href ("#" ++ frag) id_map).2 = false := by
        cases hc : (rewrite_anchor_href ("#" ++ frag) id_map).2
        · rfl
        · exfalso
          have := ((rewrite_anchor_href_spec ("#" ++ frag) id_map).1).mp hc
          rw [rsplit_hash_pure frag hnh] at this
          rw [hmap] at this
          simp at this
      unfold process_link
      rw [if_neg (not_not_intro hta), hgetD,
        if_neg (hash_pure_ne_empty frag), if_neg (by rw [hch]; exact Bool.false_ne_true),
        link_b1_pure cids frag el.text hne hid,
        link_b2_pure cids frag el.text hne hnh hid,
        if_pos (show el.tag = "a" ∧ getAttr el "href" = some ("#" ++ frag) from ⟨hta, hhref⟩)]
      by_cases hz : is_zendesk_generated_id frag
      · rw [if_pos hz, if_pos hz]
        simp [List.filter]
      · rw [if_neg hz, if_neg hz]
        simp [List.filter]
    · rw [if_neg (fun hc => hhref hc.2)]
      have hne2 : ¬ (getAttr el "href").getD "" = "#" ++ frag := by
        intro h
        cases hga : getAttr el "href" with
        | none =>
          rw [hga] at h
          exact hash_pure_ne_empty frag h.symm
        | some v =>
          rw [hga] at h
          exact hhref (by rw [hga]; exact congrArg some h)
      rw [List.length_eq_zero]
      rw [List.filter_eq_nil_iff]
      intro b hb
      have hbshape := process_link_broken_shape id_map cids el b hb
      rw [hbshape]
      simpa using hne2
  · rw [process_link_not_anchor _ _ _ hta]
    simp only [List.filter_nil, List.length_nil]
    rw [if_neg (fun hc => hta hc.1)]

/-- Summing the per-link counts over the document. -/
theorem flatMap_pure_frag_count (id_map : List (String × String)) (cids : List String)
    (frag : String) (hne : ¬ frag = "") (hnh : ¬ '#' ∈ frag.toList)
    (hmap : mapLookup id_map frag = none) (hid : ¬ frag ∈ cids) :
    ∀ docs : List Element,
      ((docs.flatMap (fun el => (process_link id_map cids el).2.2)).filter
          (fun b => b.href = "#" ++ frag)).length =
        (docs.filter (fun el => el.tag = "a" &&
          (getAttr el "href" == some ("#" ++ frag)))).length *
          (if is_zendesk_generated_id frag then 2 else 1) := by
  intro docs
  induction docs with
  | nil => simp
  | cons el rest ih =>
    rw [List.flatMap_cons, List.filter_append, List.length_append, ih,
      process_link_pure_frag id_map cids el frag hne hnh hmap hid, List.filter_cons]
    by_cases hc : el.tag = "a" ∧ getAttr el "href" = some ("#" ++ frag)
    · have hp : (decide (el.tag = "a") && (getAttr el "href" == some ("#" ++ frag))) = true := by
        rw [hc.1, hc.2]
        simp
      rw [if_pos hc, if_pos hp, List.length_cons, Nat.succ_mul]
      omega
    · have hq : ¬ ((decide (el.tag = "a") &&
          (getAttr el "href" == some ("#" ++ frag))) = true) := by
        intro hb
        simp only [Bool.and_eq_true, decide_eq_true_eq, beq_iff_eq] at hb
        exact hc ⟨hb.1, hb.2⟩
      rw [if_neg hc, if_neg hq]
      omega

/-- The regex `h_[0-9A-Z]{20,}` (full match), spelled out. -/
theorem is_zendesk_iff (current : String) :
    is_zendesk_generated_id current = true ↔
      ∃ rest : List Char, current.toList = 'h' :: '_' :: rest ∧ 20 ≤ rest.length ∧
        ∀ c ∈ rest, isUpperAlnum c = true := by
  unfold is_zendesk_generated_id
  constructor
  · intro h
    simp only [Bool.and_eq_true, beq_iff_eq, decide_eq_true_eq, List.all_eq_true] at h
    obtain ⟨⟨hpair, hlen⟩, hall⟩ := h
    refine ⟨current.toList.drop 2, ?_, hlen, hall⟩
    conv_lhs => rw [← List.take_append_drop 2 current.toList]
    rw [hpair]
    rfl
  · rintro ⟨r, hr, hlen, hall⟩
    simp only [hr, List.take_succ_cons, List.take_zero, List.drop_succ_cons,
      List.drop_zero, Bool.and_eq_true, beq_iff_eq, decide_eq_true_eq, List.all_eq_true]
    exact ⟨⟨trivial, hlen⟩, hall⟩

theorem should_replace_zendesk (flag : Bool) (cur : String)
    (h : should_replace_id flag cur = true) (hne : ¬ cur = "") :
    is_zendesk_generated_id cur = true := by
  unfold should_replace_id at h
  simp only [Bool.and_eq_true, Bool.or_eq_true, beq_iff_eq] at h
  rcases h.2 with h2 | h2
  · exact absurd h2 hne
  · exact h2

theorem setAdd_mem (l : List String) (y x : String) :
    x ∈ setAdd l y ↔ x ∈ l ∨ x = y := by
  unfold setAdd
  by_cases hy : y ∈ l
  · rw [if_pos hy]
    constructor
    · exact Or.inl
    · rintro (hx | rfl)
      · exact hx
      · exact hy
  · rw [if_neg hy]
    rw [List.mem_cons]
    constructor
    · rintro (rfl | hx)
      · exact Or.inr rfl
      · exact Or.inl hx
    · rintro (hx | rfl)
      · exact Or.inr hx
      · exact Or.inl rfl

theorem find?_map_overwrite_hit (m : List (String × String)) (k v : String)
    (hsome : (m.find? (fun kv => kv.1 = k)).isSome = true) :
    (m.map (fun kv => if kv.1 = k then (k, v) else kv)).find?
      (fun kv => kv.1 = k) = some (k, v) := by
  induction m with
  | nil => simp at hsome
  | cons kv rest ih =>
    by_cases hk : kv.1 = k
    · rw [List.map_cons, if_pos hk, List.find?_cons_of_pos _ (by simp)]
    · rw [List.map_cons, if_neg hk, List.find?_cons_of_neg _ (by simpa using hk)]
      apply ih
      rw [List.find?_cons_of_neg _ (by simpa using hk)] at hsome
      exact hsome

theorem find?_map_overwrite_miss (m : List (String × String)) (k v k2 : String)
    (hne : ¬ k2 = k) :
    (m.map (fun kv => if kv.1 = k then (k, v) else kv)).find?
      (fun kv => kv.1 = k2) = m.find? (fun kv => kv.1 = k2) := by
  induction m with
  | nil => simp
  | cons kv rest ih =>
    by_cases hk : kv.1 = k
    · have h2 : ¬ kv.1 = k2 := fun hh => hne (by rw [← hh]; exact hk)
      rw [List.map_cons, if_pos hk,
        List.find?_cons_of_neg _ (by simpa using fun hh : k = k2 => hne hh.symm),
        List.find?_cons_of_neg _ (by simpa using h2), ih]
    · rw [List.map_cons, if_neg hk]
      by_cases h2 : kv.1 = k2
      · rw [List.find?_cons_of_pos _ (by simpa using h2),
          List.find?_cons_of_pos _ (by simpa using h2)]
      · rw [List.find?_cons_of_neg _ (by simpa using h2),
          List.find?_cons_of_neg _ (by simpa using h2), ih]

theorem mapLookup_mapInsert (m : List (String × String)) (k v k2 : String) :
    mapLookup (mapInsert m k v) k2 = if k2 = k then some v else mapLookup m k2 := by
  unfold mapInsert mapLookup
  by_cases hsome : (m.find? (fun kv => kv.1 = k)).isSome = true
  · rw [if_pos hsome]
    by_cases h : k2 = k
    · subst h
      rw [find?_map_overwrite_hit m k2 v hsome, if_pos rfl]
      rfl
    · rw [find?_map_overwrite_miss m k v k2 h, if_neg h]
  · rw [if_neg hsome]
    have hnone : m.find? (fun kv => kv.1 = k) = none :=
      Option.not_isSome_iff_eq_none.mp (by simpa using hsome)
    by_cases h : k2 = k
    · subst h
      rw [List.find?_append, hnone, if_pos rfl]
      simp
    · rw [List.find?_append, if_neg h]
      cases hf : m.find? (fun kv => kv.1 = k2) with
      | some x => simp
      | none =>
        have h' : ¬ k = k2 := fun hh => h hh.symm
        simp [List.find?_cons, h']

theorem dash_append_toList (base suf : String) :
    (base ++ "-" ++ suf).toList = base.toList ++ '-' :: suf.toList := by
  show (base ++ "-" ++ suf).data = base.data ++ '-' :: suf.data
  rw [String.data_append, String.data_append,
    show ("-" : String).data = ['-'] from rfl, List.append_assoc]
  rfl

theorem suffixCandidate_chars (base : String) (i : Nat) :
    ∀ c ∈ (suffixCandidate base i).toList,
      c ∈ base.toList ∨ c = '-' ∨ (48 ≤ c.toNat ∧ c.toNat ≤ 57) := by
  intro c hc
  unfold suffixCandidate at hc
  rw [dash_append_toList] at hc
  rcases List.mem_append.mp hc with h | h
  · exact Or.inl h
  · rcases List.mem_cons.mp h with rfl | h
    · exact Or.inr (Or.inl rfl)
    · exact Or.inr (Or.inr (natDigitsAux_digit _ _ c (by rwa [natRepr_toList] at h)))

theorem suffixCandidate_ne_empty (base : String) (i : Nat) :
    ¬ suffixCandidate base i = "" := by
  intro h
  have hd := congrArg String.data h
  unfold suffixCandidate at hd
  rw [show (base ++ "-" ++ natRepr i).data = base.data ++ '-' :: (natRepr i).data from
    dash_append_toList base (natRepr i)] at hd
  simp at hd

theorem unique_id_slug_chars (title : String) (used : List String) :
    ∀ c ∈ ((unique_id (slugify title) used).1).toList,
      isLowerAlnum c = true ∨ c = '-' := by
  intro c hc
  obtain ⟨h1, h2, h3, h4⟩ := unique_id_props (slugify title) used
  by_cases hb : slugify title ∈ used
  · obtain ⟨i, _, heq, _⟩ := h4 hb
    rw [heq] at hc
    rcases suffixCandidate_chars (slugify title) i c hc with h | h | h
    · exact slugify_chars title c h
    · exact Or.inr h
    · left
      unfold isLowerAlnum
      simp only [Bool.or_eq_true, Bool.and_eq_true, decide_eq_true_eq]
      omega
  · rw [h3 hb] at hc
    exact slugify_chars title c hc

theorem unique_id_slug_ne_empty (title : String) (used : List String) :
    ¬ (unique_id (slugify title) used).1 = "" := by
  obtain ⟨h1, h2, h3, h4⟩ := unique_id_props (slugify title) used
  by_cases hb : slugify title ∈ used
  · obtain ⟨i, _, heq, _⟩ := h4 hb
    rw [heq]
    exact suffixCandidate_ne_empty _ i
  · rw [h3 hb]
    exact slugify_ne_empty title

theorem unique_id_slug_no_underscore (title : String) (used : List String) :
    ¬ '_' ∈ ((unique_id (slugify title) used).1).toList := by
  intro hm
  rcases unique_id_slug_chars title used '_' hm with h | h
  · unfold isLowerAlnum at h
    simp only [Bool.or_eq_true, Bool.and_eq_true, decide_eq_true_eq] at h
    have h95 : ('_' : Char).toNat = 95 := rfl
    omega
  · exact absurd h (by decide)

theorem unique_id_slug_no_hash (title : String) (used : List String) :
    ¬ '#' ∈ ((unique_id (slugify title) used).1).toList := by
  intro hm
  rcases unique_id_slug_chars title used '#' hm with h | h
  · unfold isLowerAlnum at h
    simp only [Bool.or_eq_true, Bool.and_eq_true, decide_eq_true_eq] at h
    have h35 : ('#' : Char).toNat = 35 := rfl
    omega
  · exact absurd h (by decide)

theorem unique_id_slug_not_zendesk (title : String) (used : List String) :
    is_zendesk_generated_id ((unique_id (slugify title) used).1) = false := by
  cases hz : is_zendesk_generated_id ((unique_id (slugify title) used).1)
  · rfl
  · exfalso
    obtain ⟨rest, hr, _, _⟩ := (is_zendesk_iff _).mp hz
    have hu : '_' ∈ ((unique_id (slugify title) used).1).toList := by
      rw [hr]
      exact List.mem_cons_of_mem _ (List.mem_cons_self _ _)
    exact unique_id_slug_no_underscore title used hu

theorem zendesk_ne_empty (k : String) (h : is_zendesk_generated_id k = true) :
    ¬ k = "" := by
  obtain ⟨rest, hr, _, _⟩ := (is_zendesk_iff k).mp h
  intro he
  rw [he] at hr
  simp at hr

theorem zendesk_no_hash (k : String) (h : is_zendesk_generated_id k = true) :
    ¬ '#' ∈ k.toList := by
  obtain ⟨rest, hr, _, hall⟩ := (is_zendesk_iff k).mp h
  intro hm
  rw [hr] at hm
  rcases List.mem_cons.mp hm with he | hm
  · exact absurd he (by decide)
  rcases List.mem_cons.mp hm with he | hm
  · exact absurd he (by decide)
  · have hup := hall '#' hm
    unfold isUpperAlnum at hup
    simp only [Bool.or_eq_true, Bool.and_eq_true, decide_eq_true_eq] at hup
    have h35 : ('#' : Char).toNat = 35 := rfl
    omega

/-- One heading step of the indexer: whichever classifier branch runs, the
step is a `finishHeading` with a chosen identifier; the lemma packages what
each branch guarantees about that identifier, the used-id set and the
identifier map. -/
theorem indexStep_heading (url : String) (repl : Bool) (s : IdxState) (h : Element)
    (hh : h.tag ∈ HEADING_TAGS) :
    ∃ hid used1 idm1,
      indexStep url repl s h =
        finishHeading url s used1 idm1 (setAttr h "id" hid) h.text hid ∧
      (∀ x ∈ s.used, x ∈ used1) ∧ (hid ∈ used1) ∧
      (∀ x ∈ used1, x ∈ s.used ∨ x = hid) ∧
      ((hid = (unique_id (slugify h.text) s.used).1 ∧ ¬ hid ∈ s.used) ∨
        (hid = pyStrip ((getAttr h "id").getD "") ∧ ¬ hid = "")) ∧
      (∀ k v, mapLookup idm1 k = some v →
        mapLookup s.id_map k = some v ∨
        (is_zendesk_generated_id k = true ∧ v = hid ∧
          hid = (unique_id (slugify h.text) s.used).1)) := by
  unfold indexStep
  rw [if_pos hh]
  by_cases hsr : should_replace_id repl (pyStrip ((getAttr h "id").getD ""))
  · rw [if_pos hsr]
    obtain ⟨hu1, hu2, _, _⟩ := unique_id_props (slugify h.text) s.used
    refine ⟨(unique_id (slugify h.text) s.used).1, (unique_id (slugify h.text) s.used).2,
      _, rfl, ?_, ?_, ?_, Or.inl ⟨rfl, hu1⟩, ?_⟩
    · intro x hx
      rw [hu2]
      exact List.mem_cons_of_mem _ hx
    · rw [hu2]
      exact List.mem_cons_self _ _
    · intro x hx
      rw [hu2] at hx
      rcases List.mem_cons.mp hx with rfl | hx
      · exact Or.inr rfl
      · exact Or.inl hx
    · intro k v hkv
      by_cases hold : pyStrip ((getAttr h "id").getD "") = ""
      · rw [if_pos hold] at hkv
        exact Or.inl hkv
      · rw [if_neg hold, mapLookup_mapInsert] at hkv
        by_cases hkk : k = pyStrip ((getAttr h "id").getD "")
        · rw [if_pos hkk] at hkv
          right
          refine ⟨?_, (Option.some.inj hkv).symm, rfl⟩
          rw [hkk]
          exact should_replace_zendesk repl _ hsr hold
        · rw [if_neg hkk] at hkv
          exact Or.inl hkv
  · rw [if_neg hsr]
    by_cases hcur : pyStrip ((getAttr h "id").getD "") = ""
    · rw [if_pos hcur]
      obtain ⟨hu1, hu2, _, _⟩ := unique_id_props (slugify h.text) s.used
      refine ⟨(unique_id (slugify h.text) s.used).1,
        setAdd (unique_id (slugify h.text) s.used).2
          (unique_id (slugify h.text) s.used).1,
        s.id_map, rfl, ?_, ?_, ?_, Or.inl ⟨rfl, hu1⟩, fun k v hkv => Or.inl hkv⟩
      · intro x hx
        rw [setAdd_mem]
        left
        rw [hu2]
        exact List.mem_cons_of_mem _ hx
      · rw [setAdd_mem]
        exact Or.inr rfl
      · intro x hx
        rw [setAdd_mem] at hx
        rcases hx with hx | rfl
        · rw [hu2] at hx
          rcases List.mem_cons.mp hx with rfl | hx
          · exact Or.inr rfl
          · exact Or.inl hx
        · exact Or.inr rfl
    · rw [if_neg hcur]
      refine ⟨pyStrip ((getAttr h "id").getD ""),
        setAdd s.used (pyStrip ((getAttr h "id").getD "")), s.id_map, rfl,
        ?_, ?_, ?_, Or.inr ⟨rfl, hcur⟩, fun k v hkv => Or.inl hkv⟩
      · intro x hx
        rw [setAdd_mem]
        exact Or.inl hx
      · rw [setAdd_mem]
        exact Or.inr rfl
      · intro x hx
        rw [setAdd_mem] at hx
        exact hx

/-- Invariant carried by the indexer's fold: every identifier-map entry
maps an editor-generated key to a freshly allocated slug value that is the
id attribute of an element already emitted. -/
def MapInv (s : IdxState) : Prop :=
  ∀ k v, mapLookup s.id_map k = some v →
    is_zendesk_generated_id k = true ∧
    (∀ c ∈ v.toList, isLowerAlnum c = true ∨ c = '-') ∧ (¬ v = "") ∧
    (¬ '#' ∈ v.toList) ∧ (¬ '_' ∈ v.toList) ∧
    ∃ el, el ∈ s.out ∧ getAttr el "id" = some v

theorem indexStep_MapInv (url : String) (repl : Bool) (s : IdxState) (h : Element)
    (hinv : MapInv s) : MapInv (indexStep url repl s h) := by
  by_cases hh : h.tag ∈ HEADING_TAGS
  · obtain ⟨hid, used1, idm1, heq, _, _, _, hprov, hmap⟩ := indexStep_heading url repl s h hh
    rw [heq]
    intro k v hkv
    rcases hmap k v hkv with hold | ⟨hzk, hv, hfresh⟩
    · obtain ⟨hz, hch, hne, hnh, hnu, el, hel, hgel⟩ := hinv k v hold
      exact ⟨hz, hch, hne, hnh, hnu, el, List.mem_append_left _ hel, hgel⟩
    · refine ⟨hzk, ?_, ?_, ?_, ?_, setAttr h "id" hid,
        List.mem_append_right _ (List.mem_cons_self _ _), ?_⟩
      · rw [hv, hfresh]
        exact unique_id_slug_chars h.text s.used
      · rw [hv, hfresh]
        exact unique_id_slug_ne_empty h.text s.used
      · rw [hv, hfresh]
        exact unique_id_slug_no_hash h.text s.used
      · rw [hv, hfresh]
        exact unique_id_slug_no_underscore h.text s.used
      · rw [getAttr_setAttr, if_pos rfl, hv]
  · unfold indexStep
    rw [if_neg hh]
    intro k v hkv
    obtain ⟨hz, hch, hne, hnh, hnu, el, hel, hgel⟩ := hinv k v hkv
    exact ⟨hz, hch, hne, hnh, hnu, el, List.mem_append_left _ hel, hgel⟩

theorem foldl_MapInv (url : String) (repl : Bool) :
    ∀ (docs : List Element) (s : IdxState), MapInv s →
      MapInv (docs.foldl (indexStep url repl) s) := by
  intro docs
  induction docs with
  | nil => intro s hs; exact hs
  | cons el rest ih =>
    intro s hs
    exact ih _ (indexStep_MapInv url repl s el hs)

/-- The identifier map of a finished indexing run satisfies the invariant. -/
theorem add_heading_MapInv (doc : List Element) (url : String) (repl : Bool) :
    ∀ k v, mapLookup (add_heading_ids_and_collect doc url repl).2.2 k = some v →
      is_zendesk_generated_id k = true ∧
      (∀ c ∈ v.toList, isLowerAlnum c = true ∨ c = '-') ∧ (¬ v = "") ∧
      (¬ '#' ∈ v.toList) ∧ (¬ '_' ∈ v.toList) ∧
      ∃ el, el ∈ (add_heading_ids_and_collect doc url repl).1 ∧
        getAttr el "id" = some v := by
  have hinit : MapInv
      { used := collect_ids doc, stack := [], rows := [], id_map := [],
        out := ([] : List Element) } := by
    intro k v hkv
    simp [mapLookup] at hkv
  exact foldl_MapInv url repl doc _ hinit

/-- C4: the Identifier Allocator returns `base` unchanged when it is not in
`used`, and otherwise the suffixed variant `base-i` for the smallest `i ≥ 2`
not in `used`; the returned token is never in `used` at call time and is a
member of the updated set after the call. -/
theorem C4_unique_id_allocator (base : String) (used : List String) :
    ((unique_id base used).1 ∉ used) ∧
    ((unique_id base used).1 ∈ (unique_id base used).2) ∧
    (base ∉ used → (unique_id base used).1 = base) ∧
    (base ∈ used → ∃ i, 2 ≤ i ∧ (unique_id base used).1 = suffixCandidate base i ∧
      ∀ j, 2 ≤ j → j < i → suffixCandidate base j ∈ used) := by
  obtain ⟨h1, h2, h3, h4⟩ := unique_id_props base used
  exact ⟨h1, by rw [h2]; exact List.mem_cons_self _ _, h3, h4⟩

/-- C5: the Heading Classifier replaces exactly when the flag is enabled and
the existing identifier is empty or fully matches `h_[0-9A-Z]{20,}`; with
the flag enabled, `h_0000000000000000000A` is classified for replacement,
`intro-section` is preserved, and an empty identifier is classified for
replacement. -/
theorem C5_classifier (flag : Bool) (current : String) :
    (should_replace_id flag current = true ↔
      (flag = true ∧ (current = "" ∨ is_zendesk_generated_id current = true))) ∧
    (is_zendesk_generated_id current = true ↔
      ∃ rest : List Char, current.toList = 'h' :: '_' :: rest ∧ 20 ≤ rest.length ∧
        ∀ c ∈ rest, isUpperAlnum c = true) ∧
    should_replace_id true "h_0000000000000000000A" = true ∧
    should_replace_id true "intro-section" = false ∧
    should_replace_id true "" = true := by
  refine ⟨?_, is_zendesk_iff current, by decide, by decide, by decide⟩
  simp [should_replace_id]

/-- C6: slugify is total over all inputs and always returns a non-empty
token with no uppercase letters, no spaces and no leading or trailing
hyphens; when the normalized result is empty it returns the literal
fallback token `"section"`. -/
theorem C6_slugify_total (text : String) :
    (¬ slugify text = "") ∧
    (∀ c ∈ (slugify text).toList, ¬ (65 ≤ c.toNat ∧ c.toNat ≤ 90) ∧ ¬ c = ' ') ∧
    (∀ c rest, (slugify text).toList = c :: rest → ¬ c = '-') ∧
    (∀ c, (slugify text).toList.getLast? = some c → ¬ c = '-') ∧
    ((slugCore text).isEmpty = true → slugify text = "section") := by
  refine ⟨slugify_ne_empty text, ?_, slugify_head text, slugify_getLast text,
    fun h => by rw [slugify, if_pos h]⟩
  intro c hc
  have hsp : (' ' : Char).toNat = 32 := rfl
  have hda : ('-' : Char).toNat = 45 := rfl
  rcases slugify_chars text c hc with h | h
  · unfold isLowerAlnum at h
    simp only [Bool.or_eq_true, Bool.and_eq_true, decide_eq_true_eq] at h
    constructor
    · rintro ⟨h1, h2⟩
      rcases h with ⟨ha, hb⟩ | ⟨ha, hb⟩ <;> omega
    · intro hs
      subst hs
      rcases h with ⟨ha, hb⟩ | ⟨ha, hb⟩ <;> omega
  · subst h
    exact ⟨by omega, by decide⟩

/-- Document used by the C2 witness: one anchor with a missing, non
editor-generated pure fragment. -/
def missingFragDoc : List Element := [⟨"a", [("href", "#missing")], "gone"⟩]

/-- Hyperlink with no `#` in its href, used by the C8 witness. -/
def noFragLink : Element := ⟨"a", [("href", "page.html")], "t"⟩

/-- C2 counterexample: the two brokenness checks are not mutually exclusive;
the single pure-fragment occurrence `#h_0000000000000000000A` (missing, and
matching the editor-generated pattern) is appended to `broken_links` twice,
not once. -/
theorem C2_counterexample :
    (rewrite_cross_references brokenTwiceDoc []).2.2 =
      [⟨"#h_0000000000000000000A", "x"⟩, ⟨"#h_0000000000000000000A", "x"⟩] ∧
    ¬ ((rewrite_cross_references brokenTwiceDoc []).2.2.filter
        (fun b => b.href = "#h_0000000000000000000A")).length = 1 := by
  constructor
  · decide
  · decide

/-- C2 amended: the two brokenness checks are independent, not mutually
exclusive; a hyperlink appends at most two records, and each occurrence of a
pure-fragment href `#frag` whose fragment is absent from the identifier map
and from the document's identifiers is reported once when `frag` does not
match the editor-generated pattern, and twice when it does. -/
theorem C2_broken_link_count (doc : List Element) (id_map : List (String × String))
    (frag : String) (hne : ¬ frag = "") (hnh : ¬ '#' ∈ frag.toList)
    (hmap : mapLookup id_map frag = none) (hid : ¬ frag ∈ collect_ids doc) :
    ((rewrite_cross_references doc id_map).2.2.filter
        (fun b => b.href = "#" ++ frag)).length =
      (doc.filter (fun el => el.tag = "a" &&
        (getAttr el "href" == some ("#" ++ frag)))).length *
        (if is_zendesk_generated_id frag then 2 else 1) ∧
    (∀ el : Element, ((process_link id_map (collect_ids doc) el).2.2).length ≤ 2) := by
  constructor
  · exact flatMap_pure_frag_count id_map (collect_ids doc) frag hne hnh hmap hid doc
  · intro el
    exact process_link_broken_le_two id_map (collect_ids doc) el

/-- Witness for C2: one anchor with href `#missing` is reported exactly once
(its fragment does not match the editor-generated pattern). -/
theorem C2_broken_link_count_witness :
    ((rewrite_cross_references missingFragDoc []).2.2.filter
        (fun b => b.href = "#" ++ "missing")).length =
      (missingFragDoc.filter (fun el => el.tag = "a" &&
        (getAttr el "href" == some ("#" ++ "missing")))).length *
        (if is_zendesk_generated_id "missing" then 2 else 1) ∧
    (∀ el : Element,
      ((process_link [] (collect_ids missingFragDoc) el).2.2).length ≤ 2) :=
  C2_broken_link_count missingFragDoc [] "missing" (by decide) (by decide)
    (by decide) (by decide)

/-- A hyperlink whose href has no `#` or an empty last fragment is never
rewritten; it contributes the single pure-fragment record exactly when the
href starts with `#` and `href[1:]` is non-empty and missing. -/
theorem process_link_no_frag (id_map : List (String × String)) (cids : List String)
    (el : Element) (ha : el.tag = "a")
    (h8 : ¬ '#' ∈ ((getAttr el "href").getD "").toList ∨
      (rsplit_hash ((getAttr el "href").getD "")).2 = "") :
    process_link id_map cids el =
      (el, 0,
        if ((getAttr el "href").getD "").toList.head? = some '#' ∧
            ¬ (((getAttr el "href").getD "").toList.drop 1).asString = "" ∧
            ¬ (((getAttr el "href").getD "").toList.drop 1).asString ∈ cids
        then [⟨(getAttr el "href").getD "", el.text⟩] else []) := by
  have hch : (rewrite_anchor_href ((getAttr el "href").getD "") id_map).2 = false := by
    cases hc : (rewrite_anchor_href ((getAttr el "href").getD "") id_map).2
    · rfl
    · exfalso
      have hcc := (rewrite_anchor_href_spec ((getAttr el "href").getD "") id_map).1.mp hc
      rcases h8 with h | h
      · exact h hcc.2.1
      · exact hcc.2.2.1 h
  have hb2 : link_b2 cids ((getAttr el "href").getD "") el.text = [] := by
    unfold link_b2
    rcases h8 with h | h
    · rw [if_neg h]
    · by_cases hm : '#' ∈ ((getAttr el "href").getD "").toList
      · rw [if_pos hm, if_neg (fun hc => hc.1 h)]
      · rw [if_neg hm]
  have hb1 : link_b1 cids ((getAttr el "href").getD "") el.text =
      (if ((getAttr el "href").getD "").toList.head? = some '#' ∧
          ¬ (((getAttr el "href").getD "").toList.drop 1).asString = "" ∧
          ¬ (((getAttr el "href").getD "").toList.drop 1).asString ∈ cids
       then [⟨(getAttr el "href").getD "", el.text⟩] else []) := by
    unfold link_b1
    by_cases h1 : ((getAttr el "href").getD "").toList.head? = some '#'
    · rw [if_pos h1]
      by_cases h2 : ¬ (((getAttr el "href").getD "").toList.drop 1).asString = "" ∧
          ¬ (((getAttr el "href").getD "").toList.drop 1).asString ∈ cids
      · rw [if_pos h2, if_pos ⟨h1, h2.1, h2.2⟩]
      · rw [if_neg h2, if_neg (fun hc => h2 ⟨hc.2.1, hc.2.2⟩)]
    · rw [if_neg h1, if_neg (fun hc => h1 hc.1)]
  unfold process_link
  rw [if_neg (not_not_intro ha)]
  by_cases hhe : (getAttr el "href").getD "" = ""
  · rw [if_pos hhe]
    have hcond : ¬ (((getAttr el "href").getD "").toList.head? = some '#' ∧
        ¬ (((getAttr el "href").getD "").toList.drop 1).asString = "" ∧
        ¬ (((getAttr el "href").getD "").toList.drop 1).asString ∈ cids) := by
      rw [hhe]
      rintro ⟨hh, _⟩
      simp at hh
    rw [if_neg hcond]
  · rw [if_neg hhe, if_neg (by rw [hch]; exact Bool.false_ne_true), hb2,
      List.append_nil, hb1]

/-- C8 counterexample: the href `#a#` has an empty last fragment, yet the
Reference Rewriter flags it (the pure-fragment check tests `href[1:]`, which
is `a#`), so such links are not exempt from being recorded broken. -/
theorem C8_counterexample :
    (rsplit_hash "#a#").2 = "" ∧
    (rewrite_cross_references emptyFragDoc []).2.2 = [⟨"#a#", "x"⟩] := by
  constructor
  · decide
  · decide

/-- C8 amended: a hyperlink whose href contains no `#`, or whose text after
the last `#` is empty, is left unchanged and not counted, and the rewriter
never fails; it appends no record except in one case: the href begins with
`#` and `href[1:]` is non-empty (which requires a second `#`) and absent
from the current ids, in which case the pure-fragment check appends exactly
one record. -/
theorem C8_no_fragment (id_map : List (String × String)) (cids : List String)
    (el : Element) (ha : el.tag = "a")
    (h8 : ¬ '#' ∈ ((getAttr el "href").getD "").toList ∨
      (rsplit_hash ((getAttr el "href").getD "")).2 = "") :
    ((process_link id_map cids el).1 = el) ∧
    ((process_link id_map cids el).2.1 = 0) ∧
    ((process_link id_map cids el).2.2 =
      if ((getAttr el "href").getD "").toList.head? = some '#' ∧
          ¬ (((getAttr el "href").getD "").toList.drop 1).asString = "" ∧
          ¬ (((getAttr el "href").getD "").toList.drop 1).asString ∈ cids
      then [⟨(getAttr el "href").getD "", el.text⟩] else []) ∧
    (∀ doc : List Element, ∀ k : Nat, doc.getD k dElem = el →
      (rewrite_cross_references doc id_map).1.getD k dElem = el) := by
  have hmain := process_link_no_frag id_map cids el ha h8
  refine ⟨by rw [hmain], by rw [hmain], by rw [hmain], ?_⟩
  intro doc k hdk
  have hfd : (fun e => (process_link id_map (collect_ids doc) e).1) dElem = dElem :=
    congrArg Prod.fst (process_link_dElem id_map (collect_ids doc))
  have hmd := getD_map (fun e => (process_link id_map (collect_ids doc) e).1) doc dElem k hfd
  have hmain2 := process_link_no_frag id_map (collect_ids doc) el ha h8
  calc (rewrite_cross_references doc id_map).1.getD k dElem
      = (process_link id_map (collect_ids doc) (doc.getD k dElem)).1 := hmd
    _ = el := by rw [hdk, hmain2]

/-- Witness for C8: a hyperlink whose href holds no `#` passes through the
rewriter untouched, uncounted and unflagged. -/
theorem C8_no_fragment_witness :
    (process_link [] [] noFragLink).1 = noFragLink ∧
    (process_link [] [] noFragLink).2.1 = 0 ∧
    (process_link [] [] noFragLink).2.2 = [] := by
  have h := C8_no_fragment [] [] noFragLink rfl (Or.inl (by decide))
  refine ⟨h.1, h.2.1, ?_⟩
  rw [h.2.2.1]
  decide

/-- The element a link-processing step emits: either the element itself, or
the element with only its href rewritten (when the last fragment is a key of
the identifier map). -/
theorem process_link_fst (id_map : List (String × String)) (cids : List String)
    (el : Element) :
    (process_link id_map cids el).1 = el ∨
    (el.tag = "a" ∧
      (∃ newId, mapLookup id_map
        (rsplit_hash ((getAttr el "href").getD "")).2 = some newId) ∧
      (process_link id_map cids el).1 =
        setAttr el "href"
          (rewrite_anchor_href ((getAttr el "href").getD "") id_map).1) := by
  unfold process_link
  by_cases hta : el.tag = "a"
  · rw [if_neg (not_not_intro hta)]
    by_cases hhe : (getAttr el "href").getD "" = ""
    · rw [if_pos hhe]
      exact Or.inl rfl
    · rw [if_neg hhe]
      cases hch : (rewrite_anchor_href ((getAttr el "href").getD "") id_map).2 with
      | false =>
        rw [if_neg Bool.false_ne_true]
        exact Or.inl rfl
      | true =>
        rw [if_pos rfl]
        refine Or.inr ⟨hta, ?_, rfl⟩
        have hcc := (rewrite_anchor_href_spec ((getAttr el "href").getD "") id_map).1.mp hch
        obtain ⟨newId, hsome⟩ := Option.isSome_iff_exists.mp hcc.2.2.2
        exact ⟨newId, hsome⟩
  · rw [if_pos hta]
    exact Or.inl rfl

/-- C10: the rewriting pass mutates only the href attribute of anchors whose
last fragment is a key of the identifier map; tag, text, the id attribute
and every attribute other than href of every element are unchanged, and the
document keeps its length and element order. -/
theorem C10_rewrite_frame (doc : List Element) (id_map : List (String × String))
    (k : Nat) :
    (((rewrite_cross_references doc id_map).1).length = doc.length) ∧
    (((rewrite_cross_references doc id_map).1.getD k dElem).tag =
      (doc.getD k dElem).tag) ∧
    (((rewrite_cross_references doc id_map).1.getD k dElem).text =
      (doc.getD k dElem).text) ∧
    (∀ key, ¬ key = "href" →
      getAttr ((rewrite_cross_references doc id_map).1.getD k dElem) key =
        getAttr (doc.getD k dElem) key) ∧
    (getAttr ((rewrite_cross_references doc id_map).1.getD k dElem) "id" =
      getAttr (doc.getD k dElem) "id") ∧
    (¬ (rewrite_cross_references doc id_map).1.getD k dElem = doc.getD k dElem →
      (doc.getD k dElem).tag = "a" ∧
      (∃ newId, mapLookup id_map
        (rsplit_hash ((getAttr (doc.getD k dElem) "href").getD "")).2 = some newId) ∧
      (rewrite_cross_references doc id_map).1.getD k dElem =
        setAttr (doc.getD k dElem) "href"
          (rewrite_anchor_href ((getAttr (doc.getD k dElem) "href").getD "") id_map).1) := by
  have hfd : (fun e => (process_link id_map (collect_ids doc) e).1) dElem = dElem :=
    congrArg Prod.fst (process_link_dElem id_map (collect_ids doc))
  have hmd : (rewrite_cross_references doc id_map).1.getD k dElem =
      (process_link id_map (collect_ids doc) (doc.getD k dElem)).1 :=
    getD_map (fun e => (process_link id_map (collect_ids doc) e).1) doc dElem k hfd
  have hlen : ((rewrite_cross_references doc id_map).1).length = doc.length :=
    List.length_map doc _
  rcases process_link_fst id_map (collect_ids doc) (doc.getD k dElem) with hsame | hset
  · have hk : (rewrite_cross_references doc id_map).1.getD k dElem = doc.getD k dElem := by
      rw [hmd, hsame]
    refine ⟨hlen, by rw [hk], by rw [hk], fun key _ => by rw [hk], by rw [hk],
      fun hne => absurd hk hne⟩
  · obtain ⟨hta, hex, heq⟩ := hset
    have hk : (rewrite_cross_references doc id_map).1.getD k dElem =
        setAttr (doc.getD k dElem) "href"
          (rewrite_anchor_href ((getAttr (doc.getD k dElem) "href").getD "") id_map).1 := by
      rw [hmd, heq]
    refine ⟨hlen, by rw [hk]; exact tag_setAttr _ _ _, by rw [hk]; exact text_setAttr _ _ _,
      ?_, ?_, fun _ => ⟨hta, hex, hk⟩⟩
    · intro key hkey
      rw [hk, getAttr_setAttr, if_neg hkey]
    · rw [hk, getAttr_setAttr, if_neg (by decide)]

/-- C9: a freshly allocated identifier (slug with or without the numeric
collision suffix) contains no underscore and never matches the pattern
`h_[0-9A-Z]{20,}`; consequently every identifier-map entry satisfies
old ≠ new, and the classifier would never select a slug-assigned identifier
for replacement on a re-run. -/
theorem C9_fresh_ids :
    (∀ (title : String) (used : List String),
      (¬ '_' ∈ ((unique_id (slugify title) used).1).toList) ∧
      is_zendesk_generated_id ((unique_id (slugify title) used).1) = false) ∧
    (∀ (doc : List Element) (url : String) (repl : Bool) (old newId : String),
      mapLookup (add_heading_ids_and_collect doc url repl).2.2 old = some newId →
      ¬ old = newId) ∧
    (∀ (flag : Bool) (title : String) (used : List String),
      should_replace_id flag ((unique_id (slugify title) used).1) = false) := by
  refine ⟨fun title used => ⟨unique_id_slug_no_underscore title used,
    unique_id_slug_not_zendesk title used⟩, ?_, ?_⟩
  · intro doc url repl old newId hlk
    obtain ⟨hz, _, _, _, hnu, _⟩ := add_heading_MapInv doc url repl old newId hlk
    intro heq
    obtain ⟨rest, hr, _, _⟩ := (is_zendesk_iff old).mp hz
    have hm : '_' ∈ old.toList := by
      rw [hr]
      exact List.mem_cons_of_mem _ (List.mem_cons_self _ _)
    rw [heq] at hm
    exact hnu hm
  · intro flag title used
    unfold should_replace_id
    rw [unique_id_slug_not_zendesk title used]
    have hne := unique_id_slug_ne_empty title used
    simp [beq_iff_eq, hne]

theorem getAttr_getD_ne_empty (el : Element) (key : String)
    (h : ¬ (getAttr el key).getD "" = "") :
    getAttr el key = some ((getAttr el key).getD "") := by
  cases hg : getAttr el key with
  | none => rw [hg] at h; simp at h
  | some v => simp [hg]

theorem string_eq_of_toList {s t : String} (h : s.toList = t.toList) : s = t := by
  rw [← toList_asString s, ← toList_asString t, h]

theorem hash_append_inj_frag (base x y : String)
    (h : base ++ "#" ++ x = base ++ "#" ++ y) : x = y := by
  have hd := congrArg String.data h
  rw [String.data_append, String.data_append, String.data_append, String.data_append] at hd
  exact string_eq_of_toList (List.append_cancel_left hd)

theorem process_link_id_preserved (id_map : List (String × String))
    (cids : List String) (el : Element) :
    getAttr ((process_link id_map cids el).1) "id" = getAttr el "id" := by
  rcases process_link_fst id_map cids el with h | ⟨_, _, h⟩
  · rw [h]
  · rw [h, getAttr_setAttr, if_neg (by decide)]

/-- Each link-processing step either counts one and truly changes the href
(the new href differs from the old), or counts zero and leaves the element
alone.  The hypothesis is the identifier-map discipline the indexer
guarantees: a mapped value never equals its key and holds no `#`. -/
theorem process_link_changed (id_map : List (String × String)) (cids : List String)
    (el : Element)
    (Hmap : ∀ k v, mapLookup id_map k = some v → ¬ k = v ∧ ¬ '#' ∈ v.toList) :
    (((process_link id_map cids el).2.1 = 1) ∧
      ¬ getAttr ((process_link id_map cids el).1) "href" = getAttr el "href") ∨
    (((process_link id_map cids el).2.1 = 0) ∧ (process_link id_map cids el).1 = el) := by
  unfold process_link
  by_cases hta : el.tag = "a"
  · rw [if_neg (not_not_intro hta)]
    by_cases hhe : (getAttr el "href").getD "" = ""
    · rw [if_pos hhe]
      exact Or.inr ⟨rfl, rfl⟩
    · rw [if_neg hhe]
      cases hch : (rewrite_anchor_href ((getAttr el "href").getD "") id_map).2 with
      | false =>
        rw [if_neg Bool.false_ne_true]
        exact Or.inr ⟨rfl, rfl⟩
      | true =>
        rw [if_pos rfl]
        left
        refine ⟨rfl, ?_⟩
        have hcc := (rewrite_anchor_href_spec ((getAttr el "href").getD "") id_map).1.mp hch
        obtain ⟨newId, hsome⟩ := Option.isSome_iff_exists.mp hcc.2.2.2
        obtain ⟨hkv, hvh⟩ := Hmap _ _ hsome
        have hval := rewrite_anchor_href_hit ((getAttr el "href").getD "") newId id_map
          hcc.1 hcc.2.1 hcc.2.2.1 hsome
        rw [getAttr_setAttr, if_pos rfl, getAttr_getD_ne_empty el "href" hhe]
        intro hcontra
        have heq : (rewrite_anchor_href ((getAttr el "href").getD "") id_map).1 =
            (getAttr el "href").getD "" := Option.some.inj hcontra
        rw [hval] at heq
        have hfrag : (rsplit_hash ((getAttr el "href").getD "")).2 = newId := by
          by_cases hb : (rsplit_hash ((getAttr el "href").getD "")).1 = ""
          · rw [if_pos hb] at heq
            have := congrArg (fun s => (rsplit_hash s).2) heq
            simpa [rsplit_hash_pure newId hvh] using this.symm
          · rw [if_neg hb] at heq
            have := congrArg (fun s => (rsplit_hash s).2) heq
            simpa [rsplit_hash_append _ newId hvh] using this.symm
        exact hkv (by rw [← hfrag])
  · rw [if_pos hta]
    exact Or.inr ⟨rfl, rfl⟩

/-- The changed-link count of the rewriter equals the number of positions
whose href actually differs between input and output. -/
theorem rewriter_count (id_map : List (String × String)) (cids : List String)
    (Hmap : ∀ k v, mapLookup id_map k = some v → ¬ k = v ∧ ¬ '#' ∈ v.toList) :
    ∀ docs : List Element,
      (docs.map (fun el => (process_link id_map cids el).2.1)).sum =
        ((docs.zip (docs.map (fun el => (process_link id_map cids el).1))).countP
          (fun p => ¬ getAttr p.1 "href" = getAttr p.2 "href")) := by
  intro docs
  induction docs with
  | nil => simp
  | cons el rest ih =>
    rw [List.map_cons, List.sum_cons, List.map_cons, List.zip_cons_cons,
      List.countP_cons, ih]
    rcases process_link_changed id_map cids el Hmap with ⟨h1, h2⟩ | ⟨h1, h2⟩
    · rw [h1, if_pos (by simpa using fun hc => h2 hc.symm)]
      omega
    · rw [h1, h2, if_neg (by simp)]
      omega

/-- Rewriting behaviour at a position: an anchor whose href is `base#old`
with `old` a key of the map ends up with href `base#new`, everything before
the last `#` preserved. -/
theorem rewriter_at_key (doc1 : List Element) (id_map : List (String × String))
    (old newId : String) (hlk : mapLookup id_map old = some newId)
    (hz : ¬ '#' ∈ old.toList) (hne : ¬ old = "") (k : Nat) (base : String)
    (hhref : getAttr (doc1.getD k dElem) "href" = some (base ++ "#" ++ old))
    (hta : (doc1.getD k dElem).tag = "a") :
    getAttr ((rewrite_cross_references doc1 id_map).1.getD k dElem) "href" =
      some (base ++ "#" ++ newId) := by
  have hfd : (fun e => (process_link id_map (collect_ids doc1) e).1) dElem = dElem :=
    congrArg Prod.fst (process_link_dElem id_map (collect_ids doc1))
  have hmd : (rewrite_cross_references doc1 id_map).1.getD k dElem =
      (process_link id_map (collect_ids doc1) (doc1.getD k dElem)).1 :=
    getD_map _ doc1 dElem k hfd
  rw [hmd]
  unfold process_link
  rw [if_neg (not_not_intro hta)]
  have hgd : (getAttr (doc1.getD k dElem) "href").getD "" = base ++ "#" ++ old := by
    rw [hhref]
    rfl
  rw [hgd, if_neg (hash_append_ne_empty base old),
    rewrite_anchor_href_base_frag base old newId id_map hz hne hlk, if_pos rfl,
    getAttr_setAttr, if_pos rfl]

/-- C3: for every entry `old -> new` of the identifier map, every anchor
whose href's last fragment is `old` (href of the form `base#old`) is
rewritten to `base#new` — the prefix before the last `#` preserved and the
value really mutated — `new` is an id attribute of the final document, and
`changed_count` equals the number of hyperlinks whose href was mutated. -/
theorem C3_rewrite_resolve (doc : List Element) (url : String) (repl : Bool)
    (old newId : String)
    (hlk : mapLookup (add_heading_ids_and_collect doc url repl).2.2 old = some newId) :
    (∃ el, el ∈ (rewrite_cross_references (add_heading_ids_and_collect doc url repl).1
        (add_heading_ids_and_collect doc url repl).2.2).1 ∧
      getAttr el "id" = some newId) ∧
    (∀ (k : Nat) (base : String),
      getAttr ((add_heading_ids_and_collect doc url repl).1.getD k dElem) "href" =
        some (base ++ "#" ++ old) →
      ((add_heading_ids_and_collect doc url repl).1.getD k dElem).tag = "a" →
      getAttr ((rewrite_cross_references (add_heading_ids_and_collect doc url repl).1
          (add_heading_ids_and_collect doc url repl).2.2).1.getD k dElem) "href" =
        some (base ++ "#" ++ newId) ∧
      ¬ base ++ "#" ++ newId = base ++ "#" ++ old) ∧
    ((rewrite_cross_references (add_heading_ids_and_collect doc url repl).1
        (add_heading_ids_and_collect doc url repl).2.2).2.1 =
      (((add_heading_ids_and_collect doc url repl).1).zip
        (rewrite_cross_references (add_heading_ids_and_collect doc url repl).1
          (add_heading_ids_and_collect doc url repl).2.2).1).countP
        (fun p => ¬ getAttr p.1 "href" = getAttr p.2 "href")) := by
  have hminv := add_heading_MapInv doc url repl
  obtain ⟨hzold, hchars, hvne, hvnh, hvnu, el, hel, hgel⟩ := hminv old newId hlk
  have Hmap : ∀ k v,
      mapLookup (add_heading_ids_and_collect doc url repl).2.2 k = some v →
      ¬ k = v ∧ ¬ '#' ∈ v.toList := by
    intro k v hkv
    obtain ⟨hzk, _, _, hvh, hvu, _⟩ := hminv k v hkv
    refine ⟨?_, hvh⟩
    intro heq
    obtain ⟨rest, hr, _, _⟩ := (is_zendesk_iff k).mp hzk
    have hm : '_' ∈ k.toList := by
      rw [hr]
      exact List.mem_cons_of_mem _ (List.mem_cons_self _ _)
    rw [heq] at hm
    exact hvu hm
  refine ⟨?_, ?_, ?_⟩
  · refine ⟨(process_link (add_heading_ids_and_collect doc url repl).2.2
        (collect_ids (add_heading_ids_and_collect doc url repl).1) el).1, ?_, ?_⟩
    · exact List.mem_map_of_mem _ hel
    · rw [process_link_id_preserved, hgel]
  · intro k base hhref hta
    refine ⟨rewriter_at_key _ _ old newId hlk (zendesk_no_hash old hzold)
      (zendesk_ne_empty old hzold) k base hhref hta, ?_⟩
    intro hcontra
    have hon := hash_append_inj_frag base newId old hcontra
    obtain ⟨rest, hr, _, _⟩ := (is_zendesk_iff old).mp hzold
    have hm : '_' ∈ old.toList := by
      rw [hr]
      exact List.mem_cons_of_mem _ (List.mem_cons_self _ _)
    rw [← hon] at hm
    exact hvnu hm
  · exact rewriter_count _ _ Hmap _

/-- Witness for C3: in the end-to-end scenario, the anchor pointing at the
editor-generated id of the h1 resolves to `#getting-started` after the
rewrite. -/
theorem C3_rewrite_resolve_witness :
    getAttr ((rewrite_cross_references (add_heading_ids_and_collect demoDoc "" true).1
        (add_heading_ids_and_collect demoDoc "" true).2.2).1.getD 2 dElem) "href" =
      some ("" ++ "#" ++ "getting-started") := by
  have h := C3_rewrite_resolve demoDoc "" true "h_01F2GC36KSSZJMS4VPK8SSSZ7B"
    "getting-started" (by decide)
  exact (h.2.1 2 "" (by decide) (by decide)).1

theorem collect_ids_append (a b : List Element) :
    collect_ids (a ++ b) = collect_ids a ++ collect_ids b :=
  List.filterMap_append a b _

theorem collect_ids_single_some (el : Element) (v : String)
    (hg : getAttr el "id" = some v) (hv : ¬ v = "") : collect_ids [el] = [v] := by
  unfold collect_ids
  simp [List.filterMap_cons, hg, hv]

theorem collect_ids_single_empty (el : Element)
    (hg : getAttr el "id" = none ∨ getAttr el "id" = some "") :
    collect_ids [el] = [] := by
  unfold collect_ids
  rcases hg with hg | hg <;> simp [List.filterMap_cons, hg]

theorem nodup_snoc {α : Type} (l : List α) (x : α) :
    (l ++ [x]).Nodup ↔ l.Nodup ∧ ¬ x ∈ l := by
  rw [List.nodup_append]
  constructor
  · rintro ⟨h1, _, h3⟩
    exact ⟨h1, fun hx => h3 hx (List.mem_singleton_self x)⟩
  · rintro ⟨h1, h2⟩
    refine ⟨h1, List.nodup_singleton x, ?_⟩
    intro a ha hb
    rw [List.mem_singleton.mp hb] at ha
    exact h2 ha

/-- An id contributed by an element of the unprocessed suffix is in the whole
document's id list and, by no-duplicates, not in the processed prefix's. -/
theorem collect_split_not_pre (doc0 pre rest : List Element) (h : Element) (v : String)
    (hsplit : pre ++ h :: rest = doc0) (hnd : (collect_ids doc0).Nodup)
    (hv : v ∈ collect_ids [h]) :
    (v ∈ collect_ids doc0) ∧ ¬ v ∈ collect_ids pre := by
  subst hsplit
  have hform : pre ++ h :: rest = pre ++ ([h] ++ rest) := rfl
  rw [hform, collect_ids_append, collect_ids_append]
  have hvmid : v ∈ collect_ids [h] ++ collect_ids rest := List.mem_append_left _ hv
  constructor
  · exact List.mem_append_right _ hvmid
  · intro hvpre
    have hnd' := hnd
    rw [hform, collect_ids_append, collect_ids_append] at hnd'
    exact (List.nodup_append.mp hnd').2.2 hvpre hvmid

/-- Invariant for the global-uniqueness argument, relating the fold state to
the processed prefix of the input document. -/
def UniqInv (doc0 : List Element) (pre : List Element) (s : IdxState) : Prop :=
  (collect_ids s.out).Nodup ∧
  (∀ v ∈ collect_ids s.out, v ∈ s.used) ∧
  (∀ v ∈ collect_ids doc0, v ∈ s.used) ∧
  (∀ v ∈ collect_ids s.out, v ∈ collect_ids pre ∨ ¬ v ∈ collect_ids doc0)

theorem indexStep_UniqInv (doc0 : List Element) (url : String) (repl : Bool)
    (pre : List Element) (s : IdxState) (h : Element)
    (htrim : ∀ el ∈ doc0, ∀ v, getAttr el "id" = some v → pyStrip v = v)
    (hnd : (collect_ids doc0).Nodup)
    (hsplit : ∃ rest, pre ++ h :: rest = doc0)
    (hinv : UniqInv doc0 pre s) :
    UniqInv doc0 (pre ++ [h]) (indexStep url repl s h) := by
  obtain ⟨rest, hrest⟩ := hsplit
  obtain ⟨inv1, inv2, inv3, inv4⟩ := hinv
  have hmemdoc : h ∈ doc0 := by
    rw [← hrest]
    exact List.mem_append_right _ (List.mem_cons_self _ _)
  by_cases hh : h.tag ∈ HEADING_TAGS
  · obtain ⟨hid, used1, idm1, heq, hmono, hmem, hused, hprov, _⟩ :=
      indexStep_heading url repl s h hh
    rw [heq]
    have hidne : ¬ hid = "" := by
      rcases hprov with ⟨hfr, _⟩ | ⟨_, hne⟩
      · rw [hfr]
        exact unique_id_slug_ne_empty h.text s.used
      · exact hne
    have hout : collect_ids (s.out ++ [setAttr h "id" hid]) =
        collect_ids s.out ++ [hid] := by
      rw [collect_ids_append,
        collect_ids_single_some _ hid (by rw [getAttr_setAttr, if_pos rfl]) hidne]
    have hnotout : ¬ hid ∈ collect_ids s.out := by
      rcases hprov with ⟨hfr, hnu⟩ | ⟨hcur, _⟩
      · intro hmem2
        exact hnu (inv2 hid hmem2)
      · cases hga : getAttr h "id" with
        | none =>
          exfalso
          apply hidne
          rw [hcur, hga]
          rfl
        | some v =>
          have hveq : hid = v := by
            rw [hcur, hga]
            exact htrim h hmemdoc v hga
          have hvh : hid ∈ collect_ids [h] := by
            rw [collect_ids_single_some h v hga (fun he => hidne (by rw [hveq, he]))]
            rw [hveq]
            exact List.mem_singleton_self v
          obtain ⟨hindoc, hnpre⟩ := collect_split_not_pre doc0 pre rest h hid hrest hnd hvh
          intro hmem2
          rcases inv4 hid hmem2 with hp | hnd0
          · exact hnpre hp
          · exact hnd0 hindoc
    have houtf : (finishHeading url s used1 idm1 (setAttr h "id" hid) h.text hid).out =
        s.out ++ [setAttr h "id" hid] := rfl
    have husedf : (finishHeading url s used1 idm1 (setAttr h "id" hid) h.text hid).used =
        used1 := rfl
    refine ⟨?_, ?_, ?_, ?_⟩
    · rw [houtf, hout, nodup_snoc]
      exact ⟨inv1, hnotout⟩
    · intro v hv
      rw [houtf, hout] at hv
      rw [husedf]
      rcases List.mem_append.mp hv with hv | hv
      · exact hmono v (inv2 v hv)
      · rw [List.mem_singleton.mp hv]
        exact hmem
    · intro v hv
      rw [husedf]
      exact hmono v (inv3 v hv)
    · intro v hv
      rw [houtf, hout] at hv
      rcases List.mem_append.mp hv with hv | hv
      · rcases inv4 v hv with hp | hnd0
        · exact Or.inl (by rw [collect_ids_append]; exact List.mem_append_left _ hp)
        · exact Or.inr hnd0
      · rw [List.mem_singleton.mp hv]
        rcases hprov with ⟨hfr, hnu⟩ | ⟨hcur, _⟩
        · right
          intro hindoc
          exact hnu (inv3 hid hindoc)
        · left
          rw [collect_ids_append]
          apply List.mem_append_right
          cases hga : getAttr h "id" with
          | none =>
            exfalso
            apply hidne
            rw [hcur, hga]
            rfl
          | some v2 =>
            have hveq : hid = v2 := by
              rw [hcur, hga]
              exact htrim h hmemdoc v2 hga
            rw [collect_ids_single_some h v2 hga (fun he => hidne (by rw [hveq, he])),
              hveq]
            exact List.mem_singleton_self v2
  · unfold indexStep
    rw [if_neg hh]
    refine ⟨?_, ?_, ?_, ?_⟩
    · cases hga : getAttr h "id" with
      | none =>
        rw [show ({ s with out := s.out ++ [h] } : IdxState).out = s.out ++ [h] from rfl,
          collect_ids_append, collect_ids_single_empty h (Or.inl hga), List.append_nil]
        exact inv1
      | some v =>
        by_cases hv : v = ""
        · rw [show ({ s with out := s.out ++ [h] } : IdxState).out = s.out ++ [h] from rfl,
            collect_ids_append, collect_ids_single_empty h (Or.inr (hv ▸ hga)),
            List.append_nil]
          exact inv1
        · rw [show ({ s with out := s.out ++ [h] } : IdxState).out = s.out ++ [h] from rfl,
            collect_ids_append, collect_ids_single_some h v hga hv, nodup_snoc]
          refine ⟨inv1, ?_⟩
          have hvh : v ∈ collect_ids [h] := by
            rw [collect_ids_single_some h v hga hv]
            exact List.mem_singleton_self v
          obtain ⟨hindoc, hnpre⟩ := collect_split_not_pre doc0 pre rest h v hrest hnd hvh
          intro hmem2
          rcases inv4 v hmem2 with hp | hnd0
          · exact hnpre hp
          · exact hnd0 hindoc
    · intro v hv
      rw [show ({ s with out := s.out ++ [h] } : IdxState).out = s.out ++ [h] from rfl,
        collect_ids_append] at hv
      rcases List.mem_append.mp hv with hv | hv
      · exact inv2 v hv
      · cases hga : getAttr h "id" with
        | none =>
          rw [collect_ids_single_empty h (Or.inl hga)] at hv
          simp at hv
        | some v2 =>
          by_cases hv2 : v2 = ""
          · rw [collect_ids_single_empty h (Or.inr (hv2 ▸ hga))] at hv
            simp at hv
          · rw [collect_ids_single_some h v2 hga hv2] at hv
            rw [List.mem_singleton.mp hv]
            apply inv3
            have hvh : v2 ∈ collect_ids [h] := by
              rw [collect_ids_single_some h v2 hga hv2]
              exact List.mem_singleton_self v2
            exact (collect_split_not_pre doc0 pre rest h v2 hrest hnd hvh).1
    · exact inv3
    · intro v hv
      rw [show ({ s with out := s.out ++ [h] } : IdxState).out = s.out ++ [h] from rfl,
        collect_ids_append] at hv
      rcases List.mem_append.mp hv with hv | hv
      · rcases inv4 v hv with hp | hnd0
        · exact Or.inl (by rw [collect_ids_append]; exact List.mem_append_left _ hp)
        · exact Or.inr hnd0
      · left
        rw [collect_ids_append]
        exact List.mem_append_right _ hv

theorem foldl_UniqInv (doc0 : List Element) (url : String) (repl : Bool)
    (htrim : ∀ el ∈ doc0, ∀ v, getAttr el "id" = some v → pyStrip v = v)
    (hnd : (collect_ids doc0).Nodup) :
    ∀ (rest pre : List Element) (s : IdxState),
      pre ++ rest = doc0 → UniqInv doc0 pre s →
      UniqInv doc0 (pre ++ rest) (rest.foldl (indexStep url repl) s) := by
  intro rest
  induction rest with
  | nil =>
    intro pre s hsplit hinv
    simpa using hinv
  | cons h rest' ih =>
    intro pre s hsplit hinv
    have hstep := indexStep_UniqInv doc0 url repl pre s h htrim hnd ⟨rest', hsplit⟩ hinv
    have hres := ih (pre ++ [h]) (indexStep url repl s h)
      (by rw [List.append_assoc]; simpa using hsplit) hstep
    rw [List.append_assoc] at hres
    simpa using hres

/-- Document with no id attributes at all, used by the C1 witness. -/
def noIdDoc : List Element := [⟨"h1", [], "Getting Started"⟩, ⟨"h2", [], "Install"⟩]

/-- C1 counterexample: a document whose two headings both carry the
author-chosen identifier `intro-section` keeps both of them (the classifier
preserves non-editor-generated identifiers), so the final document carries
the same identifier twice and global uniqueness fails. -/
theorem C1_counterexample :
    collect_ids (add_heading_ids_and_collect dupIdDoc "" true).1 =
      ["intro-section", "intro-section"] ∧
    ¬ (collect_ids (add_heading_ids_and_collect dupIdDoc "" true).1).Nodup := by
  constructor
  · decide
  · decide

/-- C1 amended: provided every id attribute value of the input document is
already whitespace-trimmed and the sequence of non-empty id values of the
input contains no duplicate, then after indexing (for either flag value) the
sequence of non-empty id values of the output document contains no
duplicate: no two elements carry the same identifier token. -/
theorem C1_unique_ids (doc : List Element) (url : String) (repl : Bool)
    (htrim : ∀ el ∈ doc, ∀ v, getAttr el "id" = some v → pyStrip v = v)
    (hnd : (collect_ids doc).Nodup) :
    (collect_ids (add_heading_ids_and_collect doc url repl).1).Nodup := by
  have hinit : UniqInv doc []
      { used := collect_ids doc, stack := [], rows := [], id_map := [],
        out := ([] : List Element) } := by
    refine ⟨?_, ?_, ?_, ?_⟩
    · exact List.nodup_nil
    · intro v hv
      simp [collect_ids] at hv
    · intro v hv
      exact hv
    · intro v hv
      simp [collect_ids] at hv
  have hfin := foldl_UniqInv doc url repl htrim hnd doc [] _ rfl hinit
  exact hfin.1

/-- Witness for C1: a document without ids satisfies the hypotheses, and the
indexed output has pairwise distinct identifiers. -/
theorem C1_unique_ids_witness :
    (collect_ids (add_heading_ids_and_collect noIdDoc "" true).1).Nodup := by
  refine C1_unique_ids noIdDoc "" true ?_ (by decide)
  intro el hel v hv
  fin_cases hel <;> simp [getAttr, List.find?] at hv

/-- Specification of the still-open ancestor title at level `i` after a
sequence of headings given most-recent-first: the most recent heading at
level `i`, unless a more recent heading has a strictly smaller level (which
closes level `i`). -/
def openTitleRev : List (Nat × String) → Nat → Option String
  | [], _ => none
  | (lvl, t) :: rest, i =>
    if lvl = i then some t
    else if lvl < i then none
    else openTitleRev rest i

/-- The sequence of (level, title) pairs of the document's headings, in
document order. -/
def headingsOf (doc : List Element) : List (Nat × String) :=
  doc.filterMap (fun el =>
    if el.tag ∈ HEADING_TAGS then some (heading_level el.tag, el.text) else none)

theorem openTitleRev_cons (lvl : Nat) (t : String) (rest : List (Nat × String))
    (i : Nat) :
    openTitleRev ((lvl, t) :: rest) i =
      if lvl = i then some t
      else if lvl < i then none
      else openTitleRev rest i := rfl

theorem headingsOf_append (a b : List Element) :
    headingsOf (a ++ b) = headingsOf a ++ headingsOf b :=
  List.filterMap_append a b _

theorem headingsOf_heading (h : Element) (hh : h.tag ∈ HEADING_TAGS) :
    headingsOf [h] = [(heading_level h.tag, h.text)] := by
  unfold headingsOf
  simp [List.filterMap_cons, hh]

theorem headingsOf_other (h : Element) (hh : ¬ h.tag ∈ HEADING_TAGS) :
    headingsOf [h] = [] := by
  unfold headingsOf
  simp [List.filterMap_cons, hh]

theorem heading_level_bounds (tag : String) (h : tag ∈ HEADING_TAGS) :
    1 ≤ heading_level tag ∧ heading_level tag ≤ 6 := by
  unfold HEADING_TAGS at h
  simp only [List.mem_cons, List.not_mem_nil, or_false] at h
  rcases h with rfl | rfl | rfl | rfl | rfl | rfl <;> decide

theorem find?_filter_preserve {α : Type} (l : List α) (p q : α → Bool)
    (h : ∀ x ∈ l, p x = true → q x = true) :
    (l.filter q).find? p = l.find? p := by
  induction l with
  | nil => simp
  | cons a rest ih =>
    by_cases hq : q a = true
    · rw [List.filter_cons_of_pos hq]
      by_cases hp : p a = true
      · rw [List.find?_cons_of_pos _ hp, List.find?_cons_of_pos _ hp]
      · rw [List.find?_cons_of_neg _ (by simpa using hp),
          List.find?_cons_of_neg _ (by simpa using hp)]
        exact ih (fun x hx => h x (List.mem_cons_of_mem a hx))
    · have hp : ¬ p a = true := fun hpa => hq (h a (List.mem_cons_self a rest) hpa)
      rw [List.filter_cons_of_neg (by simpa using hq),
        List.find?_cons_of_neg _ (by simpa using hp)]
      exact ih (fun x hx => h x (List.mem_cons_of_mem a hx))

/-- What the stack lookup sees after `stack[lvl] = (title, hid)` followed by
the pruning of deeper levels. -/
theorem stackFind_after (st : List (Nat × String × String)) (lvl : Nat)
    (title hid : String) (hkeys : ∀ e ∈ st, 1 ≤ e.1 ∧ e.1 ≤ 6)
    (i : Nat) (hi6 : i ≤ 6) :
    stackFind (stackPrune (stackUpdate st lvl title hid) lvl) i =
      if i = lvl then some (title, hid)
      else if lvl < i then none
      else stackFind st i := by
  unfold stackFind stackPrune stackUpdate
  by_cases hil : i = lvl
  · subst hil
    rw [List.filter_cons_of_pos (by simp), List.find?_cons_of_pos _ (by simp),
      if_pos rfl]
    rfl
  · rw [if_neg hil, List.filter_cons_of_pos (by simp),
      List.find?_cons_of_neg _ (by simpa using fun hh : lvl = i => hil hh.symm)]
    by_cases hlt : lvl < i
    · rw [if_pos hlt]
      have hnone : ((st.filter (fun e => ¬ e.1 = lvl)).filter
          (fun e => e.1 ≤ lvl || 7 ≤ e.1)).find? (fun e => e.1 = i) = none := by
        rw [List.find?_eq_none]
        intro x hx
        obtain ⟨hx1, hx2⟩ := List.mem_filter.mp hx
        obtain ⟨hx0, _⟩ := List.mem_filter.mp hx1
        simp only [Bool.or_eq_true, decide_eq_true_eq] at hx2
        intro hpx
        simp only [decide_eq_true_eq] at hpx
        have hb := hkeys x hx0
        omega
      rw [hnone]
      rfl
    · rw [if_neg hlt]
      rw [find?_filter_preserve _ _ _ (by
        intro x hx hpx
        simp only [decide_eq_true_eq] at hpx
        simp only [Bool.or_eq_true, decide_eq_true_eq]
        omega)]
      rw [find?_filter_preserve _ _ _ (by
        intro x hx hpx
        simp only [decide_eq_true_eq] at hpx
        simp only [decide_eq_true_eq]
        omega)]

theorem getD_snoc_length {α : Type} (l : List α) (x d : α) :
    (l ++ [x]).getD l.length d = x := by
  induction l with
  | nil => rfl
  | cons a l ih => simp

/-- Correspondence between the indexer's path stack and the still-open
ancestors of the heading sequence processed so far. -/
def StackSpec (st : List (Nat × String × String)) (hs : List (Nat × String)) : Prop :=
  (∀ e ∈ st, 1 ≤ e.1 ∧ e.1 ≤ 6) ∧
  (∀ i, 1 ≤ i → i ≤ 6 →
    (stackFind st i).map (fun e => e.1) = openTitleRev hs.reverse i)

/-- Specification of the rows emitted so far: levels, headings, and absolute
paths computed from the still-open ancestors. -/
def RowsSpec (rows : List Row) (hs : List (Nat × String)) : Prop :=
  rows.length = hs.length ∧
  ∀ j, j < rows.length →
    (rows.getD j dRow).level = (hs.getD j (0, "")).1 ∧
    (rows.getD j dRow).heading = (hs.getD j (0, "")).2 ∧
    (rows.getD j dRow).absolutePath = String.intercalate " > "
      ((List.range' 1 (hs.getD j (0, "")).1).filterMap
        (openTitleRev ((hs.take (j + 1)).reverse)))

theorem finishHeading_stack (url : String) (s : IdxState) (used : List String)
    (idm : List (String × String)) (h1 : Element) (title hid : String) :
    (finishHeading url s used idm h1 title hid).stack =
      stackPrune (stackUpdate s.stack (heading_level h1.tag) title hid)
        (heading_level h1.tag) := rfl

theorem finishHeading_rows (url : String) (s : IdxState) (used : List String)
    (idm : List (String × String)) (h1 : Element) (title hid : String) :
    (finishHeading url s used idm h1 title hid).rows =
      s.rows ++ [⟨heading_level h1.tag, title, hid,
        String.intercalate " > " (path_titles
          (stackPrune (stackUpdate s.stack (heading_level h1.tag) title hid)
            (heading_level h1.tag)) (heading_level h1.tag)),
        "#" ++ hid, if url = "" then "#" ++ hid else url ++ ("#" ++ hid)⟩] := rfl

/-- One indexer step extends the stack and row specifications by the
processed element's headings (one pair for a heading element, none
otherwise). -/
theorem indexStep_PathInv (url : String) (repl : Bool) (s : IdxState) (h : Element)
    (hs : List (Nat × String))
    (hst : StackSpec s.stack hs) (hro : RowsSpec s.rows hs) :
    StackSpec (indexStep url repl s h).stack (hs ++ headingsOf [h]) ∧
    RowsSpec (indexStep url repl s h).rows (hs ++ headingsOf [h]) := by
  obtain ⟨hkeys, hcorr⟩ := hst
  obtain ⟨hlen, hrows⟩ := hro
  by_cases hh : h.tag ∈ HEADING_TAGS
  · rw [headingsOf_heading h hh]
    obtain ⟨hid, used1, idm1, heq, _, _, _, _, _⟩ := indexStep_heading url repl s h hh
    rw [heq]
    obtain ⟨hl1, hl6⟩ := heading_level_bounds h.tag hh
    have htag : (setAttr h "id" hid).tag = h.tag := rfl
    have hstf := finishHeading_stack url s used1 idm1 (setAttr h "id" hid) h.text hid
    have hrwf := finishHeading_rows url s used1 idm1 (setAttr h "id" hid) h.text hid
    rw [htag] at hstf hrwf
    have hrevs : (hs ++ [(heading_level h.tag, h.text)]).reverse =
        (heading_level h.tag, h.text) :: hs.reverse := by
      rw [List.reverse_append]
      rfl
    have hstack1 : ∀ i, 1 ≤ i → i ≤ 6 →
        (stackFind (stackPrune (stackUpdate s.stack (heading_level h.tag) h.text hid)
          (heading_level h.tag)) i).map (fun e => e.1) =
        openTitleRev ((hs ++ [(heading_level h.tag, h.text)]).reverse) i := by
      intro i hi1 hi6
      rw [stackFind_after s.stack (heading_level h.tag) h.text hid hkeys i hi6,
        hrevs, openTitleRev_cons]
      by_cases hil : i = heading_level h.tag
      · rw [if_pos hil, if_pos hil.symm]
        rfl
      · rw [if_neg hil, if_neg (fun hh2 : heading_level h.tag = i => hil hh2.symm)]
        by_cases hlt : heading_level h.tag < i
        · rw [if_pos hlt, if_pos hlt]
          rfl
        · rw [if_neg hlt, if_neg hlt]
          exact hcorr i hi1 hi6
    constructor
    · rw [hstf]
      constructor
      · intro e he
        unfold stackPrune stackUpdate at he
        obtain ⟨he1, _⟩ := List.mem_filter.mp he
        rcases List.mem_cons.mp he1 with rfl | he2
        · exact ⟨hl1, hl6⟩
        · exact hkeys e (List.mem_filter.mp he2).1
      · exact hstack1
    · rw [hrwf]
      constructor
      · rw [List.length_append, List.length_append, hlen]
        rfl
      · intro j hj
        rw [List.length_append, List.length_cons, List.length_nil] at hj
        by_cases hjl : j < s.rows.length
        · have hjh : j < hs.length := by rw [← hlen]; exact hjl
          rw [List.getD_append _ _ _ _ hjl, List.getD_append _ _ _ _ hjh,
            List.take_append_of_le_length hjh]
          exact hrows j hjl
        · have hje : j = s.rows.length := by omega
          subst hje
          rw [getD_snoc_length, hlen, getD_snoc_length,
            show hs.length + 1 = (hs ++ [(heading_level h.tag, h.text)]).length
              from by simp,
            List.take_length]
          refine ⟨rfl, rfl, ?_⟩
          show String.intercalate " > " (path_titles
              (stackPrune (stackUpdate s.stack (heading_level h.tag) h.text hid)
                (heading_level h.tag)) (heading_level h.tag)) =
            String.intercalate " > "
              ((List.range' 1 ((heading_level h.tag, h.text) : Nat × String).1).filterMap
                (openTitleRev ((hs ++ [(heading_level h.tag, h.text)]).reverse)))
          unfold path_titles
          congr 1
          apply List.filterMap_congr
          intro i hi
          have hmem := List.mem_range'_1.mp hi
          exact hstack1 i hmem.1 (by omega)
  · rw [headingsOf_other h hh]
    unfold indexStep
    rw [if_neg hh, List.append_nil]
    exact ⟨⟨hkeys, hcorr⟩, hlen, hrows⟩

theorem foldl_PathInv (url : String) (repl : Bool) :
    ∀ (docs : List Element) (s : IdxState) (hs : List (Nat × String)),
      StackSpec s.stack hs → RowsSpec s.rows hs →
      StackSpec ((docs.foldl (indexStep url repl) s)).stack (hs ++ headingsOf docs) ∧
      RowsSpec ((docs.foldl (indexStep url repl) s)).rows (hs ++ headingsOf docs) := by
  intro docs
  induction docs with
  | nil =>
    intro s hs h1 h2
    have he : headingsOf [] = [] := rfl
    rw [List.foldl_nil, he, List.append_nil]
    exact ⟨h1, h2⟩
  | cons h rest ih =>
    intro s hs h1 h2
    obtain ⟨h1', h2'⟩ := indexStep_PathInv url repl s h hs h1 h2
    have hres := ih (indexStep url repl s h) (hs ++ headingsOf [h]) h1' h2'
    rw [show (h :: rest) = [h] ++ rest from rfl, headingsOf_append, List.foldl_append]
    rw [List.append_assoc] at hres
    exact hres

/-- C7: each emitted row's level and heading come from the corresponding
heading of the document, and its absolutePath joins with `" > "` the titles
of the still-open ancestors at levels 1..L (most recent heading at each
level not closed by a later shallower heading), the heading's own title
last. -/
theorem C7_absolute_paths (doc : List Element) (url : String) (repl : Bool) (k : Nat)
    (hk : k < (add_heading_ids_and_collect doc url repl).2.1.length) :
    ((add_heading_ids_and_collect doc url repl).2.1.length = (headingsOf doc).length) ∧
    (((add_heading_ids_and_collect doc url repl).2.1.getD k dRow).level =
      ((headingsOf doc).getD k (0, "")).1) ∧
    (((add_heading_ids_and_collect doc url repl).2.1.getD k dRow).heading =
      ((headingsOf doc).getD k (0, "")).2) ∧
    (((add_heading_ids_and_collect doc url repl).2.1.getD k dRow).absolutePath =
      String.intercalate " > "
        ((List.range' 1 ((headingsOf doc).getD k (0, "")).1).filterMap
          (openTitleRev (((headingsOf doc).take (k + 1)).reverse)))) := by
  have hinit : StackSpec ([] : List (Nat × String × String)) [] := by
    refine ⟨?_, ?_⟩
    · intro e he
      simp at he
    · intro i _ _
      rfl
  have hinit2 : RowsSpec ([] : List Row) [] := by
    refine ⟨rfl, ?_⟩
    intro j hj
    simp at hj
  have hfold := foldl_PathInv url repl doc
    { used := collect_ids doc, stack := [], rows := [], id_map := [],
      out := ([] : List Element) } [] hinit hinit2
  rw [List.nil_append] at hfold
  obtain ⟨hstk, hlen, hrows⟩ := hfold
  have hr := hrows k hk
  exact ⟨hlen, hr.1, hr.2.1, hr.2.2⟩

/-- Witness for C7: in the end-to-end scenario the h2 titled `Install`,
nested under the h1 `Getting Started`, has absolute path
`Getting Started > Install`. -/
theorem C7_absolute_paths_witness :
    ((add_heading_ids_and_collect demoDoc "" true).2.1.getD 1 dRow).absolutePath =
      "Getting Started > Install" := by
  have h := C7_absolute_paths demoDoc "" true 1 (by decide)
  rw [h.2.2.2]
  decide

end CleanAndIndex

